import Mathlib

set_option maxHeartbeats 1600000

/-!
Verification of the `migrator` package, a PostgreSQL schema-migration
runner.  The Go source is shallowly embedded:

* the migration source (`fs.FS`) is a tree of named nodes;
* the database is explicit state — the rows of the bookkeeping table and
  the advisory-lock flag — together with an environment of injected
  outcomes for the operations that can fail at the SQL or transport
  level (the pure model cannot itself produce I/O failures, so the
  possible failure of each database call is a parameter);
* `Migrator.Run` is a pure function returning the run outcome, the final
  database state and the trace of database operations attempted.

String utilities (`filepath.Base`, `strings.TrimSuffix`,
`strings.HasSuffix`, `strings.Split`) are re-implemented at rune level:
Go compares and slices byte strings, and on valid UTF-8 the byte order
and the code-point order coincide.
-/

deriving instance DecidableEq for Except

/-- Go `strings.HasSuffix s suf`, at rune level. -/
def hasSuffix (s suf : String) : Bool :=
  suf.data.isSuffixOf s.data

/-- Go `strings.TrimSuffix s suf`: drops `suf` from the end of `s` when present. -/
def trimSuffix (s suf : String) : String :=
  if hasSuffix s suf then ⟨s.data.take (s.data.length - suf.data.length)⟩ else s

/-- Go `filepath.Base` (slash-separated paths): the last element of the path,
with trailing slashes removed; `""` gives `"."` and an all-slash path gives `"/"`. -/
def baseName (p : String) : String :=
  if p = "" then "."
  else
    let r := p.data.reverse.dropWhile (fun c => c = '/')
    if r = [] then "/"
    else ⟨(r.takeWhile (fun c => c ≠ '/')).reverse⟩

/-- Splits a character list at every occurrence of `sep` (Go `strings.Split`). -/
def splitChars (sep : Char) : List Char → List (List Char)
  | [] => [[]]
  | c :: cs =>
    if c = sep then [] :: splitChars sep cs
    else
      match splitChars sep cs with
      | [] => [[c]]
      | g :: gs => (c :: g) :: gs

/-- A slash-separated path, as its list of components. -/
def splitPath (p : String) : List String :=
  (splitChars '/' p.data).map (fun l => ⟨l⟩)

/-- One node of the migration source `fs.FS`: a file with contents, or a
directory with children. -/
inductive FSNode where
  | file (name : String) (content : String)
  | dir (name : String) (children : List FSNode)

/-- The name of an `fs.FS` entry. -/
def FSNode.name : FSNode → String
  | .file nm _ => nm
  | .dir nm _ => nm

mutual

/-- The `fs.WalkDir` callback of `getMigrationFiles`, on one node: collects
`path` for every non-directory entry whose name ends in `".sql"`, where
`path` is the prefix accumulated from the enclosing directories followed by
the entry name; recurses into directories. -/
def walkNode (pre : String) : FSNode → List String
  | .file nm _ => if hasSuffix nm ".sql" then [pre ++ nm] else []
  | .dir nm children => walkList (pre ++ nm ++ "/") children

/-- `walkNode` over a list of sibling nodes. -/
def walkList (pre : String) : List FSNode → List String
  | [] => []
  | n :: ns => walkNode pre n ++ walkList pre ns

end

mutual

/-- Resolves a component path against one node: a file matches a singleton
path equal to its name, a directory matches its name followed by a non-empty
remainder resolved among its children. -/
def lookupIn : FSNode → List String → Option String
  | .file nm c, comps => if comps = [nm] then some c else none
  | .dir nm ch, d :: r :: rs => if d = nm then lookupFile ch (r :: rs) else none
  | .dir _ _, _ => none

/-- Resolves a component path among sibling nodes, first match wins
(names are unique in a well-formed `fs.FS`). -/
def lookupFile : List FSNode → List String → Option String
  | [], _ => none
  | n :: ns, comps =>
    match lookupIn n comps with
    | some c => some c
    | none => lookupFile ns comps

end

/-- Go `fs.ReadFile(m.migrations, path)`: the contents of the file at the
slash-separated `path`, if any. -/
def readFile (root : List FSNode) (p : String) : Option String :=
  lookupFile root (splitPath p)

/-- Lexicographic comparison of character lists, as a computable boolean:
`lexLeL x y` holds when `x` is not strictly greater than `y`.  This is the
order `sort.Strings` sorts by: Go compares byte strings, and on valid UTF-8
the byte order and the code-point order coincide. -/
def lexLeL : List Char → List Char → Bool
  | [], _ => true
  | _ :: _, [] => false
  | a :: as, b :: bs => if a < b then true else if b < a then false else lexLeL as bs

/-- `lexLeL` on strings. -/
def lexLe (a b : String) : Bool :=
  lexLeL a.data b.data

/-- Go `sort.Strings`: the ascending lexicographic reordering.  Any correct
sort of a list of strings produces this list (equal keys are equal strings),
so insertion sort is a faithful model. -/
def sortStrings (l : List String) : List String :=
  List.insertionSort (fun a b => lexLe a b = true) l

/-- The version of a migration file: its base name minus the `".sql"`
extension (`strings.TrimSuffix(filepath.Base(file), ".sql")`). -/
def versionOf (file : String) : String :=
  trimSuffix (baseName file) ".sql"

/-- One database operation attempted by a run, in trace order.  The SQL text
of the fixed statements is reflected in the constructor name; the bodies of
migrations and the inserted versions carry their argument. -/
inductive Event where
  | tryLockEv
  | unlockEv
  | beginEv
  | createTableEv
  | lockTableEv
  | readAppliedEv
  | execBodyEv (file : String)
  | insertEv (version : String)
  | commitEv
  | rollbackEv
deriving DecidableEq

/-- Injected outcomes of the database operations a run performs.  `execOk`
decides whether `tx.Exec` of a migration body succeeds; `insertFails` injects
a non-key failure of the bookkeeping insert (a duplicate version always
fails, from the primary-key constraint, independently of this field). -/
structure Env where
  tryLockQueryFails : Bool
  lockAvailable : Bool
  unlockQueryFails : Bool
  beginFails : Bool
  createFails : Bool
  lockTableFails : Bool
  readAppliedFails : Bool
  execOk : String → Bool
  insertFails : String → Bool
  commitFails : Bool

/-- The observable database state: the bookkeeping table (`none` when the
table does not exist, otherwise its rows in insertion order) and whether the
advisory lock `pg_try_advisory_lock(1)` is held by this session. -/
structure DBState where
  schemaMigrations : Option (List String)
  lockHeld : Bool
deriving DecidableEq

/-- Failure of `applyMigration`, by phase. -/
inductive ApplyErr where
  | readFileFailed
  | execFailed
  | insertFailed
deriving DecidableEq

/-- Failure of `Run`, by phase, reflecting the `fmt.Errorf` wrapping in the
source.  `acquireLockFailed` is the transport failure of the
`pg_try_advisory_lock` query, `anotherInProgress` the distinguished
"another migration is in progress" error, `unlockFailed` the error built by
`unlock` (never returned by `Run` itself). -/
inductive RunErr where
  | acquireLockFailed
  | anotherInProgress
  | unlockFailed
  | beginFailed
  | createTableFailed
  | lockTableFailed
  | getAppliedFailed
  | applyFailed (version : String) (e : ApplyErr)
  | commitFailed
deriving DecidableEq

/-- The migrator (`type Migrator struct`): the database handle is the
explicit `Env`/`DBState` threading, so only the migration source remains. -/
structure Migrator where
  migrations : List FSNode

/-- `getMigrationFiles`: walks the source collecting every non-directory
entry whose name ends in `".sql"`, then sorts the full paths
(`sort.Strings(files)`).  On pure tree data the walk cannot fail, so the
error return of the Go function is always nil here. -/
def Migrator.getMigrationFiles (m : Migrator) : List String :=
  sortStrings (walkList "" m.migrations)

/-- `tryLock`: `SELECT pg_try_advisory_lock(1)` scanned into a boolean;
a query failure is wrapped into an error, otherwise the boolean is
returned. -/
def Migrator.tryLock (env : Env) : Except RunErr Bool :=
  if env.tryLockQueryFails then .error .acquireLockFailed else .ok env.lockAvailable

/-- `unlock`: `SELECT pg_advisory_unlock(1)` scanned into `released`; a
query failure is wrapped into an error.  The scanned `released` boolean —
whether a lock was actually released — is ignored by the source, which
returns nil whenever the query itself succeeded. -/
def Migrator.unlock (env : Env) (st : DBState) : Except RunErr Unit × DBState :=
  if env.unlockQueryFails then (.error .unlockFailed, st)
  else (.ok (), { st with lockHeld := false })

/-- `createMigrationsTable`: `CREATE TABLE IF NOT EXISTS schema_migrations`
inside the transaction; yields the rows visible after the statement (empty
when the table had not existed). -/
def Migrator.createMigrationsTable (env : Env) (tbl : Option (List String)) :
    Except RunErr (List String) :=
  if env.createFails then .error .createTableFailed else .ok (tbl.getD [])

/-- `getAppliedMigrations`: `SELECT version FROM schema_migrations`, the
set of applied versions (represented as the row list; the Go map is its
membership function). -/
def Migrator.getAppliedMigrations (env : Env) (rows : List String) :
    Except RunErr (List String) :=
  if env.readAppliedFails then .error .getAppliedFailed else .ok rows

/-- `applyMigration`: reads the file body, executes it on the transaction,
then inserts the version into the bookkeeping table.  The insert fails on a
duplicate version (primary-key constraint) or on an injected failure.
Events record each statement attempted, in order. -/
def Migrator.applyMigration (m : Migrator) (env : Env) (version file : String)
    (rows : List String) : Except ApplyErr (List String) × List Event :=
  match readFile m.migrations file with
  | none => (.error .readFileFailed, [])
  | some content =>
    if env.execOk content then
      if env.insertFails version || rows.contains version then
        (.error .insertFailed, [Event.execBodyEv file, Event.insertEv version])
      else
        (.ok (rows ++ [version]), [Event.execBodyEv file, Event.insertEv version])
    else
      (.error .execFailed, [Event.execBodyEv file])

/-- The `for _, file := range files` loop of `Run`: skips versions in the
`applied` snapshot, applies the rest in list order, stopping at the first
failure with the `failed to apply migration <version>` wrapping. -/
def Migrator.migrateLoop (m : Migrator) (env : Env) (applied : List String) :
    List String → List String → Except RunErr (List String) × List Event
  | [], rows => (.ok rows, [])
  | file :: rest, rows =>
    if applied.contains (versionOf file) then m.migrateLoop env applied rest rows
    else
      match m.applyMigration env (versionOf file) file rows with
      | (.error e, evs) => (.error (.applyFailed (versionOf file) e), evs)
      | (.ok rows2, evs) =>
        match m.migrateLoop env applied rest rows2 with
        | (r, evs2) => (r, evs ++ evs2)

/-- The closure passed to `m.tx` in `Run`: create the bookkeeping table,
`LOCK TABLE schema_migrations`, read the applied versions, list the source
files and run the pending loop, all on the transaction.  Yields the rows the
transaction would commit. -/
def Migrator.txBody (m : Migrator) (env : Env) (tbl : Option (List String)) :
    Except RunErr (List String) × List Event :=
  match Migrator.createMigrationsTable env tbl with
  | .error e => (.error e, [Event.createTableEv])
  | .ok rows0 =>
    if env.lockTableFails then
      (.error .lockTableFailed, [Event.createTableEv, Event.lockTableEv])
    else
      match Migrator.getAppliedMigrations env rows0 with
      | .error e =>
        (.error e, [Event.createTableEv, Event.lockTableEv, Event.readAppliedEv])
      | .ok applied =>
        let (r, evs) := m.migrateLoop env applied m.getMigrationFiles rows0
        (r, [Event.createTableEv, Event.lockTableEv, Event.readAppliedEv] ++ evs)

/-- `m.tx`: begin a transaction, run the body, roll back on its failure
(discarding every change, the table creation included) and otherwise
commit; a failed commit leaves nothing durable. -/
def Migrator.txRun (m : Migrator) (env : Env) (st : DBState) :
    Except RunErr Unit × DBState × List Event :=
  if env.beginFails then (.error .beginFailed, st, [Event.beginEv])
  else
    match m.txBody env st.schemaMigrations with
    | (.error e, evs) => (.error e, st, [Event.beginEv] ++ evs ++ [Event.rollbackEv])
    | (.ok rows, evs) =>
      if env.commitFails then
        (.error .commitFailed, st, [Event.beginEv] ++ evs ++ [Event.commitEv])
      else
        (.ok (), { st with schemaMigrations := some rows },
          [Event.beginEv] ++ evs ++ [Event.commitEv])

/-- `Run`: try the advisory lock — a transport failure or contention returns
before anything else is touched; otherwise run the transaction and, by the
deferred cleanup, attempt the unlock on every exit path, keeping the
transaction result as the run result (an unlock failure is only printed). -/
def Migrator.Run (m : Migrator) (env : Env) (st : DBState) :
    Except RunErr Unit × DBState × List Event :=
  match Migrator.tryLock env with
  | .error e => (.error e, st, [Event.tryLockEv])
  | .ok locked =>
    if !locked then (.error .anotherInProgress, st, [Event.tryLockEv])
    else
      let (r, st2, evs) := m.txRun env { st with lockHeld := true }
      let (_rel, st3) := Migrator.unlock env st2
      (r, st3, [Event.tryLockEv] ++ evs ++ [Event.unlockEv])

/-- All infrastructure operations of a run succeed and the advisory lock is
available; only migration bodies and inserts may fail. -/
def Env.infraOk (env : Env) : Bool :=
  !env.tryLockQueryFails && env.lockAvailable && !env.beginFails &&
    !env.createFails && !env.lockTableFails && !env.readAppliedFails &&
    !env.commitFails

/-- The files of a run whose version is not in the applied snapshot, in
list order. -/
def pendingOf (applied : List String) (files : List String) : List String :=
  files.filter (fun f => !(applied.contains (versionOf f)))

/-- The migration bodies executed during a trace, in order. -/
def execFiles : List Event → List String
  | [] => []
  | .execBodyEv f :: tr => f :: execFiles tr
  | _ :: tr => execFiles tr

/-- The bookkeeping inserts attempted during a trace, in order. -/
def insertVersions : List Event → List String
  | [] => []
  | .insertEv v :: tr => v :: insertVersions tr
  | _ :: tr => insertVersions tr

/-- The event block of one successfully applied migration: its body, then
its bookkeeping insert. -/
def applyEvents (f : String) : List Event :=
  [Event.execBodyEv f, Event.insertEv (versionOf f)]

/-! ### The configurable, context-aware module version

`options.go` belongs to the current version of the module, whose core
(`New` returning an error, `Run` taking a `context.Context`, a
configuration-driven table name and lock identifier) is exercised by the
repository's tests but is itself not among the source files; it is
modelled from the spec below.  The configuration surface is embedded from
`options.go` directly. -/

/-- `config` of options.go: the migrations tracking-table name and the
advisory-lock identifier.  The structured logger has no observable effect
in this model and is omitted. -/
structure Config where
  tableName : String
  lockID : Int
deriving DecidableEq

/-- `defaultConfig` of options.go. -/
def defaultConfig : Config :=
  { tableName := "schema_migrations", lockID := 5764249691895432819 }

/-- `Option` of options.go (named `MOption` here, the Go name collides with
the core library): a function updating the configuration. -/
def MOption : Type := Config → Config

/-- `WithTableName` of options.go. -/
def WithTableName (name : String) : MOption :=
  fun c => { c with tableName := name }

/-- `WithLockID` of options.go. -/
def WithLockID (id : Int) : MOption :=
  fun c => { c with lockID := id }

/-- The `for _, opt := range opts` application of options over the default
configuration performed by the constructor. -/
def applyOptions (opts : List MOption) (c : Config) : Config :=
  opts.foldl (fun acc o => o acc) c

/-- The configuration error of the constructor: a nil database handle or a
nil migration source. -/
inductive ConfigErr where
  | nilDB
  | nilMigrations
deriving DecidableEq

/-- The configurable migrator: its migration source and its configuration.
The database handle is the explicit environment/state threading. -/
structure MigratorC where
  migrations : List FSNode
  cfg : Config

/-- Modelled from the spec: the constructor `New` of the current module
version (absent from `src/`; only its options, tests and callers are
present).  "Fails with a configuration error if either is absent": a nil
database handle or nil migration source is rejected, otherwise the migrator
carries the option-amended default configuration. -/
def NewC (db : Option Unit) (migrations : Option (List FSNode))
    (opts : List MOption) : Except ConfigErr MigratorC :=
  match db with
  | none => .error .nilDB
  | some _ =>
    match migrations with
    | none => .error .nilMigrations
    | some fsys => .ok { migrations := fsys, cfg := applyOptions opts defaultConfig }

/-- A database operation attempted by the configurable `Run`, carrying the
table name or lock identifier it addresses. -/
inductive CEvent where
  | ctryLock (id : Int)
  | cunlock (id : Int)
  | cbegin
  | ccreate (tableName : String)
  | clockTable (tableName : String)
  | cread (tableName : String)
  | cexec (file : String)
  | cinsert (tableName : String) (version : String)
  | ccommit
  | crollback
deriving DecidableEq

/-- Environment of the configurable run: whether the caller's context is
already cancelled, which advisory-lock identifiers are available, and
whether a migration body executes successfully. -/
structure CEnv where
  cancelled : Bool
  lockAvailable : Int → Bool
  execOk : String → Bool

/-- Database state for the configurable run: the tables by name, and the
advisory-lock identifiers held by this session. -/
structure CState where
  tables : List (String × List String)
  heldLocks : List Int
deriving DecidableEq

/-- Failure of the configurable run: context cancellation, lock contention,
or the failure of a specific version. -/
inductive CErr where
  | ctxCancelled
  | inProgress
  | capplyFailed (version : String)
deriving DecidableEq

/-- The rows of the named table, if it exists. -/
def lookupTable (ts : List (String × List String)) (name : String) :
    Option (List String) :=
  match ts.find? (fun p => p.1 == name) with
  | some p => some p.2
  | none => none

/-- Replaces (or creates) the named table with the given rows. -/
def setTable (ts : List (String × List String)) (name : String)
    (rows : List String) : List (String × List String) :=
  match ts with
  | [] => [(name, rows)]
  | p :: rest => if p.1 == name then (name, rows) :: rest else p :: setTable rest name rows

/-- The pending loop of the configurable run: as in the source version, the
pending bodies are executed and their versions inserted into the configured
table, stopping at the first failure. -/
def cLoop (env : CEnv) (fsys : List FSNode) (tbl : String) (applied : List String) :
    List String → List String → Except CErr (List String) × List CEvent
  | [], rows => (.ok rows, [])
  | file :: rest, rows =>
    if applied.contains (versionOf file) then cLoop env fsys tbl applied rest rows
    else
      match readFile fsys file with
      | none => (.error (.capplyFailed (versionOf file)), [])
      | some content =>
        if env.execOk content then
          if rows.contains (versionOf file) then
            (.error (.capplyFailed (versionOf file)),
              [CEvent.cexec file, CEvent.cinsert tbl (versionOf file)])
          else
            match cLoop env fsys tbl applied rest (rows ++ [versionOf file]) with
            | (r, evs2) =>
              (r, [CEvent.cexec file, CEvent.cinsert tbl (versionOf file)] ++ evs2)
        else
          (.error (.capplyFailed (versionOf file)), [CEvent.cexec file])

/-- Modelled from the spec: `Run(ctx)` of the current module version (absent
from `src/`).  With an already-cancelled context every database operation
fails promptly, so the run fails before acquiring the lock or touching any
table.  Otherwise the run follows the source version with the configured
table name and lock identifier: try the configured advisory lock, exit on
contention, run one transaction (idempotent create of the configured table,
exclusive table lock, read of applied versions, pending loop), roll back on
failure and commit on success, and always release the configured lock
before returning. -/
def MigratorC.Run (m : MigratorC) (env : CEnv) (st : CState) :
    Except CErr Unit × CState × List CEvent :=
  if env.cancelled then (.error .ctxCancelled, st, [])
  else
    let id := m.cfg.lockID
    if !(env.lockAvailable id) then (.error .inProgress, st, [CEvent.ctryLock id])
    else
      let tbl := m.cfg.tableName
      let rows0 := (lookupTable st.tables tbl).getD []
      let files := sortStrings (walkList "" m.migrations)
      let (r, evs) := cLoop env m.migrations tbl rows0 files rows0
      let preEvs := [CEvent.ctryLock id, CEvent.cbegin, CEvent.ccreate tbl,
        CEvent.clockTable tbl, CEvent.cread tbl]
      match r with
      | .error e =>
        (.error e, { tables := st.tables, heldLocks := st.heldLocks },
          preEvs ++ evs ++ [CEvent.crollback, CEvent.cunlock id])
      | .ok rows =>
        (.ok (), { tables := setTable st.tables tbl rows, heldLocks := st.heldLocks },
          preEvs ++ evs ++ [CEvent.ccommit, CEvent.cunlock id])

/-- The table name a configurable-run event addresses, if any. -/
def CEvent.tableOf : CEvent → Option String
  | .ccreate n => some n
  | .clockTable n => some n
  | .cread n => some n
  | .cinsert n _ => some n
  | _ => none

/-- The advisory-lock identifier a configurable-run event addresses, if any. -/
def CEvent.lockOf : CEvent → Option Int
  | .ctryLock i => some i
  | .cunlock i => some i
  | _ => none

/-! ### Order bridge: the computable comparison agrees with `≤` on `String` -/

/-- `lexLeL x y` holds exactly when `x` is lexicographically at most `y`. -/
theorem lexLeL_le (x y : List Char) :
    lexLeL x y = true ↔ (List.Lex (· < ·) x y ∨ x = y) := by
  induction x generalizing y with
  | nil =>
    cases y with
    | nil => exact iff_of_true rfl (Or.inr rfl)
    | cons b bs => exact iff_of_true rfl (Or.inl List.Lex.nil)
  | cons a as ih =>
    cases y with
    | nil =>
      refine iff_of_false (by simp [lexLeL]) ?_
      rintro (h | h)
      · exact List.Lex.not_nil_right _ _ h
      · cases h
    | cons b bs =>
      simp only [lexLeL]
      rcases lt_trichotomy a b with hab | heq | hba
      · rw [if_pos hab]
        exact iff_of_true rfl (Or.inl (List.Lex.rel hab))
      · subst heq
        rw [if_neg (lt_irrefl a), if_neg (lt_irrefl a), ih bs]
        constructor
        · rintro (h | h)
          · exact Or.inl (List.Lex.cons h)
          · exact Or.inr (by rw [h])
        · rintro (h | h)
          · cases h with
            | cons h2 => exact Or.inl h2
            | rel h2 => exact absurd h2 (lt_irrefl a)
          · injection h with h1 h2
            exact Or.inr h2
      · have hab : ¬ a < b := asymm hba
        rw [if_neg hab, if_pos hba]
        refine iff_of_false (by simp) ?_
        rintro (h | h)
        · cases h with
          | cons h2 => exact absurd hba (lt_irrefl _)
          | rel h2 => exact absurd h2 hab
        · injection h with h1 h2
          exact absurd (h1 ▸ hba) (lt_irrefl _)

/-- The computable comparison used by the model of `sort.Strings` is the
`≤` of `String`. -/
theorem lexLe_iff (a b : String) : lexLe a b = true ↔ a ≤ b := by
  rw [String.le_iff_toList_le, le_iff_lt_or_eq]
  exact lexLeL_le a.data b.data

/-- `sortStrings` sorts ascending by `≤`. -/
theorem sortStrings_sorted (l : List String) :
    List.Pairwise (· ≤ ·) (sortStrings l) := by
  haveI : IsTotal String (fun a b => lexLe a b = true) :=
    ⟨fun a b => by rw [lexLe_iff, lexLe_iff]; exact le_total a b⟩
  haveI : IsTrans String (fun a b => lexLe a b = true) :=
    ⟨fun a b c h1 h2 => by
      rw [lexLe_iff] at h1 h2 ⊢; exact le_trans h1 h2⟩
  exact (List.sorted_insertionSort _ l).imp (fun h => (lexLe_iff _ _).mp h)

/-- Membership is preserved by `sortStrings`. -/
theorem mem_sortStrings {p : String} {l : List String} :
    p ∈ sortStrings l ↔ p ∈ l :=
  List.mem_insertionSort _

/-! ### Trace observers -/

/-- `execFiles` distributes over concatenation. -/
theorem execFiles_append (xs ys : List Event) :
    execFiles (xs ++ ys) = execFiles xs ++ execFiles ys := by
  induction xs with
  | nil => rfl
  | cons e tr ih => cases e <;> simp [execFiles, ih]

/-- `insertVersions` distributes over concatenation. -/
theorem insertVersions_append (xs ys : List Event) :
    insertVersions (xs ++ ys) = insertVersions xs ++ insertVersions ys := by
  induction xs with
  | nil => rfl
  | cons e tr ih => cases e <;> simp [insertVersions, ih]

/-- The bodies of a list of apply blocks are exactly the listed files. -/
theorem execFiles_blocks (l : List String) :
    execFiles (l.map applyEvents).flatten = l := by
  induction l with
  | nil => rfl
  | cons f fs ih => simp [applyEvents, execFiles_append, execFiles, ih]

/-- The inserts of a list of apply blocks are exactly the listed versions. -/
theorem insertVersions_blocks (l : List String) :
    insertVersions (l.map applyEvents).flatten = l.map versionOf := by
  induction l with
  | nil => rfl
  | cons f fs ih => simp [applyEvents, insertVersions_append, insertVersions, ih]

/-! ### The apply step -/

/-- Inversion of a successful `applyMigration`: the insert found no
duplicate, the version was appended, and the trace is the apply block. -/
theorem applyMigration_ok {m : Migrator} {env : Env} {v f : String}
    {rows rows2 : List String} {evs : List Event}
    (h : m.applyMigration env v f rows = (.ok rows2, evs)) :
    rows2 = rows ++ [v] ∧ evs = [Event.execBodyEv f, Event.insertEv v] ∧
      rows.contains v = false := by
  unfold Migrator.applyMigration at h
  split at h
  · simp at h
  · split at h
    · split at h
      · simp at h
      · rename_i hins
        simp only [Prod.mk.injEq, Except.ok.injEq] at h
        obtain ⟨h1, h2⟩ := h
        refine ⟨h1.symm, h2.symm, ?_⟩
        cases hcv : rows.contains v
        · rfl
        · exact absurd (by rw [hcv]; simp) hins
    · simp at h

/-- Inversion of a failed `applyMigration`: the trace stops inside the
failing block, by failure kind. -/
theorem applyMigration_err {m : Migrator} {env : Env} {v f : String}
    {rows : List String} {e : ApplyErr} {evs : List Event}
    (h : m.applyMigration env v f rows = (.error e, evs)) :
    evs = (match e with
      | .readFileFailed => []
      | .execFailed => [Event.execBodyEv f]
      | .insertFailed => [Event.execBodyEv f, Event.insertEv v]) := by
  unfold Migrator.applyMigration at h
  split at h
  · simp only [Prod.mk.injEq, Except.error.injEq] at h
    obtain ⟨h1, h2⟩ := h
    subst h2; cases h1; rfl
  · split at h
    · split at h
      · simp only [Prod.mk.injEq, Except.error.injEq] at h
        obtain ⟨h1, h2⟩ := h
        subst h2; cases h1; rfl
      · simp at h
    · simp only [Prod.mk.injEq, Except.error.injEq] at h
      obtain ⟨h1, h2⟩ := h
      subst h2; cases h1; rfl

/-! ### The pending loop -/

/-- Loop step: an already-applied version is skipped. -/
theorem migrateLoop_cons_skip {m : Migrator} {env : Env} {applied : List String}
    {file : String} {rest rows : List String}
    (h : applied.contains (versionOf file) = true) :
    m.migrateLoop env applied (file :: rest) rows =
      m.migrateLoop env applied rest rows := by
  have hm : versionOf file ∈ applied := by simpa using h
  simp [Migrator.migrateLoop, hm]

/-- Loop step: a failing pending migration stops the loop with the
`failed to apply migration` wrapping. -/
theorem migrateLoop_cons_err {m : Migrator} {env : Env} {applied : List String}
    {file : String} {rest rows : List String} {ea : ApplyErr} {evsa : List Event}
    (h : applied.contains (versionOf file) = false)
    (ha : m.applyMigration env (versionOf file) file rows = (.error ea, evsa)) :
    m.migrateLoop env applied (file :: rest) rows =
      (.error (.applyFailed (versionOf file) ea), evsa) := by
  have hm : versionOf file ∉ applied := by simpa using h
  simp [Migrator.migrateLoop, hm, ha]

/-- Loop step: a successfully applied pending migration prepends its block
and continues on the grown rows. -/
theorem migrateLoop_cons_ok {m : Migrator} {env : Env} {applied : List String}
    {file : String} {rest rows rows3 : List String} {evsa : List Event}
    (h : applied.contains (versionOf file) = false)
    (ha : m.applyMigration env (versionOf file) file rows = (.ok rows3, evsa)) :
    m.migrateLoop env applied (file :: rest) rows =
      ((m.migrateLoop env applied rest rows3).1,
        evsa ++ (m.migrateLoop env applied rest rows3).2) := by
  have hm : versionOf file ∉ applied := by simpa using h
  simp [Migrator.migrateLoop, hm, ha]

/-- Pending step: an already-applied version is not pending. -/
theorem pendingOf_cons_skip {applied : List String} {file : String}
    {rest : List String} (h : applied.contains (versionOf file) = true) :
    pendingOf applied (file :: rest) = pendingOf applied rest := by
  have hm : versionOf file ∈ applied := by simpa using h
  simp [pendingOf, List.filter_cons, hm]

/-- Pending step: a version not yet applied is pending. -/
theorem pendingOf_cons_take {applied : List String} {file : String}
    {rest : List String} (h : applied.contains (versionOf file) = false) :
    pendingOf applied (file :: rest) = file :: pendingOf applied rest := by
  have hm : versionOf file ∉ applied := by simpa using h
  simp [pendingOf, List.filter_cons, hm]

/-- Successful loop: every pending file was applied in order — its body,
then its insert — the rows grew by exactly the pending versions, and
freedom from duplicate rows is preserved. -/
theorem migrateLoop_ok (m : Migrator) (env : Env) (applied : List String) :
    ∀ (files rows rows2 : List String) (evs : List Event),
      m.migrateLoop env applied files rows = (.ok rows2, evs) →
      rows2 = rows ++ (pendingOf applied files).map versionOf ∧
      evs = ((pendingOf applied files).map applyEvents).flatten ∧
      (rows.Nodup → rows2.Nodup) := by
  intro files
  induction files with
  | nil =>
    intro rows rows2 evs h
    simp only [Migrator.migrateLoop, Prod.mk.injEq, Except.ok.injEq] at h
    obtain ⟨h1, h2⟩ := h
    subst h1; subst h2
    simp [pendingOf]
  | cons file rest ih =>
    intro rows rows2 evs h
    cases hc : applied.contains (versionOf file) with
    | true =>
      rw [migrateLoop_cons_skip hc] at h
      rw [pendingOf_cons_skip hc]
      exact ih rows rows2 evs h
    | false =>
      rcases happ : m.applyMigration env (versionOf file) file rows with ⟨ra, evsa⟩
      cases ra with
      | error ea =>
        rw [migrateLoop_cons_err hc happ] at h
        simp at h
      | ok rows3 =>
        rw [migrateLoop_cons_ok hc happ] at h
        rcases hloop : m.migrateLoop env applied rest rows3 with ⟨r2, evs2⟩
        rw [hloop] at h
        simp only [Prod.mk.injEq] at h
        obtain ⟨h1, h2⟩ := h
        subst h2
        obtain ⟨hb1, hb2, hb3⟩ := ih rows3 rows2 evs2 (by rw [hloop, h1])
        obtain ⟨ha1, ha2, ha3⟩ := applyMigration_ok happ
        subst ha2
        rw [pendingOf_cons_take hc]
        refine ⟨?_, ?_, ?_⟩
        · rw [hb1, ha1]; simp
        · rw [hb2]; simp [applyEvents]
        · intro hnd
          apply hb3
          rw [ha1]
          have hv : versionOf file ∉ rows := by simpa using ha3
          simp [List.nodup_append, hnd, hv]

/-- Failing loop: the pending files split as the successfully applied
prefix, the failing file, and a remainder that is never attempted; the
trace contains exactly the prefix blocks and the failing file's partial
block, by failure kind. -/
theorem migrateLoop_err (m : Migrator) (env : Env) (applied : List String) :
    ∀ (files rows : List String) (v : String) (e : ApplyErr) (evs : List Event),
      m.migrateLoop env applied files rows = (.error (.applyFailed v e), evs) →
      ∃ pre f post, pendingOf applied files = pre ++ f :: post ∧
        v = versionOf f ∧
        execFiles evs = pre ++ (match e with | .readFileFailed => [] | _ => [f]) ∧
        insertVersions evs = pre.map versionOf ++
          (match e with | .insertFailed => [versionOf f] | _ => []) := by
  intro files
  induction files with
  | nil =>
    intro rows v e evs h
    simp [Migrator.migrateLoop] at h
  | cons file rest ih =>
    intro rows v e evs h
    cases hc : applied.contains (versionOf file) with
    | true =>
      rw [migrateLoop_cons_skip hc] at h
      rw [pendingOf_cons_skip hc]
      exact ih rows v e evs h
    | false =>
      rcases happ : m.applyMigration env (versionOf file) file rows with ⟨ra, evsa⟩
      cases ra with
      | error ea =>
        rw [migrateLoop_cons_err hc happ] at h
        simp only [Prod.mk.injEq, Except.error.injEq, RunErr.applyFailed.injEq] at h
        obtain ⟨⟨hv, he⟩, hevs⟩ := h
        subst hv; subst he; subst hevs
        refine ⟨[], file, pendingOf applied rest, by simp [pendingOf_cons_take hc],
          rfl, ?_, ?_⟩
        · rw [applyMigration_err happ]
          cases ea <;> simp [execFiles]
        · rw [applyMigration_err happ]
          cases ea <;> simp [insertVersions]
      | ok rows3 =>
        rw [migrateLoop_cons_ok hc happ] at h
        rcases hloop : m.migrateLoop env applied rest rows3 with ⟨r2, evs2⟩
        rw [hloop] at h
        simp only [Prod.mk.injEq] at h
        obtain ⟨h1, h2⟩ := h
        subst h2
        obtain ⟨pre, f, post, hb1, hb2, hb3, hb4⟩ :=
          ih rows3 v e evs2 (by rw [hloop, h1])
        obtain ⟨_, ha2, _⟩ := applyMigration_ok happ
        subst ha2
        refine ⟨file :: pre, f, post, ?_, hb2, ?_, ?_⟩
        · rw [pendingOf_cons_take hc, hb1]; rfl
        · rw [execFiles_append, hb3]
          simp [execFiles]
        · rw [insertVersions_append, hb4]
          simp [insertVersions]

/-- A loop failure is always the failure of a specific version. -/
theorem migrateLoop_err_applyFailed (m : Migrator) (env : Env) (applied : List String) :
    ∀ (files rows : List String) (e : RunErr) (evs : List Event),
      m.migrateLoop env applied files rows = (.error e, evs) →
      ∃ v ea, e = .applyFailed v ea := by
  intro files
  induction files with
  | nil =>
    intro rows e evs h
    simp [Migrator.migrateLoop] at h
  | cons file rest ih =>
    intro rows e evs h
    cases hc : applied.contains (versionOf file) with
    | true =>
      rw [migrateLoop_cons_skip hc] at h
      exact ih rows e evs h
    | false =>
      rcases happ : m.applyMigration env (versionOf file) file rows with ⟨ra, evsa⟩
      cases ra with
      | error ea =>
        rw [migrateLoop_cons_err hc happ] at h
        simp only [Prod.mk.injEq, Except.error.injEq] at h
        exact ⟨versionOf file, ea, h.1.symm⟩
      | ok rows3 =>
        rw [migrateLoop_cons_ok hc happ] at h
        rcases hloop : m.migrateLoop env applied rest rows3 with ⟨r2, evs2⟩
        rw [hloop] at h
        simp only [Prod.mk.injEq] at h
        exact ih rows3 e evs2 (by rw [hloop, h.1])

/-- When every file's version is already applied the loop does nothing. -/
theorem migrateLoop_all_applied (m : Migrator) (env : Env) (applied : List String) :
    ∀ (files rows : List String),
      (∀ f ∈ files, applied.contains (versionOf f) = true) →
      m.migrateLoop env applied files rows = (.ok rows, []) := by
  intro files
  induction files with
  | nil => intro rows _; rfl
  | cons file rest ih =>
    intro rows hall
    rw [migrateLoop_cons_skip (hall file (by simp))]
    exact ih rows (fun f hf => hall f (by simp [hf]))

/-! ### Run characterizations -/

/-- Components of `Env.infraOk`. -/
theorem Env.infraOk_spec {env : Env} (h : env.infraOk = true) :
    env.tryLockQueryFails = false ∧ env.lockAvailable = true ∧
    env.beginFails = false ∧ env.createFails = false ∧
    env.lockTableFails = false ∧ env.readAppliedFails = false ∧
    env.commitFails = false := by
  simp only [Env.infraOk, Bool.and_eq_true, Bool.not_eq_true'] at h
  exact ⟨h.1.1.1.1.1.1, h.1.1.1.1.1.2, h.1.1.1.1.2, h.1.1.1.2, h.1.1.2, h.1.2, h.2⟩

/-- With the lock acquired, `Run` is the transaction phase bracketed by the
lock acquisition and the deferred release: its result is the transaction
result, its final state is the transaction state after the unlock, and the
trace is the transaction trace bracketed by the two lock events. -/
theorem run_locked (m : Migrator) (env : Env) (st : DBState)
    (h1 : env.tryLockQueryFails = false) (h2 : env.lockAvailable = true) :
    m.Run env st = ((m.txRun env { st with lockHeld := true }).1,
      (Migrator.unlock env (m.txRun env { st with lockHeld := true }).2.1).2,
      [Event.tryLockEv] ++ (m.txRun env { st with lockHeld := true }).2.2 ++
        [Event.unlockEv]) := by
  simp [Migrator.Run, Migrator.tryLock, h1, h2]

/-- With benign infrastructure and a successful pending loop, the run
commits: the table holds exactly the loop's rows and the trace is the five
infrastructure operations, the loop trace, the commit and the unlock. -/
theorem run_infra_ok (m : Migrator) (env : Env) (st : DBState)
    {rows : List String} {evs : List Event} (h : env.infraOk = true)
    (hloop : m.migrateLoop env (st.schemaMigrations.getD [])
      m.getMigrationFiles (st.schemaMigrations.getD []) = (.ok rows, evs)) :
    m.Run env st = (.ok (), ⟨some rows, env.unlockQueryFails⟩,
      [Event.tryLockEv, Event.beginEv, Event.createTableEv, Event.lockTableEv,
        Event.readAppliedEv] ++ evs ++ [Event.commitEv, Event.unlockEv]) := by
  obtain ⟨h1, h2, h3, h4, h5, h6, h7⟩ := Env.infraOk_spec h
  rw [run_locked m env st h1 h2]
  have htx : m.txRun env { st with lockHeld := true } =
      (.ok (), ⟨some rows, true⟩,
        [Event.beginEv, Event.createTableEv, Event.lockTableEv,
          Event.readAppliedEv] ++ evs ++ [Event.commitEv]) := by
    simp [Migrator.txRun, Migrator.txBody, Migrator.createMigrationsTable,
      Migrator.getAppliedMigrations, h3, h4, h5, h6, h7, hloop]
  rw [htx]
  cases hu : env.unlockQueryFails <;> simp [Migrator.unlock, hu]

/-- With benign infrastructure and a failing pending loop, the run rolls
back: the error is the loop's, the table is unchanged, and the trace is the
five infrastructure operations, the loop trace, the rollback and the
unlock. -/
theorem run_infra_err (m : Migrator) (env : Env) (st : DBState)
    {e : RunErr} {evs : List Event} (h : env.infraOk = true)
    (hloop : m.migrateLoop env (st.schemaMigrations.getD [])
      m.getMigrationFiles (st.schemaMigrations.getD []) = (.error e, evs)) :
    m.Run env st = (.error e, ⟨st.schemaMigrations, env.unlockQueryFails⟩,
      [Event.tryLockEv, Event.beginEv, Event.createTableEv, Event.lockTableEv,
        Event.readAppliedEv] ++ evs ++ [Event.rollbackEv, Event.unlockEv]) := by
  obtain ⟨h1, h2, h3, h4, h5, h6, h7⟩ := Env.infraOk_spec h
  rw [run_locked m env st h1 h2]
  have htx : m.txRun env { st with lockHeld := true } =
      (.error e, ⟨st.schemaMigrations, true⟩,
        [Event.beginEv, Event.createTableEv, Event.lockTableEv,
          Event.readAppliedEv] ++ evs ++ [Event.rollbackEv]) := by
    simp [Migrator.txRun, Migrator.txBody, Migrator.createMigrationsTable,
      Migrator.getAppliedMigrations, h3, h4, h5, h6, h7, hloop]
  rw [htx]
  cases hu : env.unlockQueryFails <;> simp [Migrator.unlock, hu]

/-- A run returning `failed to apply migration <v>` reached the pending
loop, its table is untouched, and its trace is the bracketed loop trace
with the rollback. -/
theorem run_applyFailed_inv (m : Migrator) (env : Env) (st : DBState)
    {v : String} {ea : ApplyErr} {st' : DBState} {tr : List Event}
    (hrun : m.Run env st = (.error (.applyFailed v ea), st', tr)) :
    ∃ evs, m.migrateLoop env (st.schemaMigrations.getD []) m.getMigrationFiles
        (st.schemaMigrations.getD []) = (.error (.applyFailed v ea), evs) ∧
      st'.schemaMigrations = st.schemaMigrations ∧
      tr = [Event.tryLockEv, Event.beginEv, Event.createTableEv, Event.lockTableEv,
        Event.readAppliedEv] ++ evs ++ [Event.rollbackEv, Event.unlockEv] := by
  cases h1 : env.tryLockQueryFails
  case true => simp [Migrator.Run, Migrator.tryLock, h1] at hrun
  case false =>
  cases h2 : env.lockAvailable
  case false => simp [Migrator.Run, Migrator.tryLock, h1, h2] at hrun
  case true =>
  rw [run_locked m env st h1 h2] at hrun
  cases h3 : env.beginFails
  case true => simp [Migrator.txRun, h3] at hrun
  case false =>
  cases h4 : env.createFails
  case true =>
    simp [Migrator.txRun, Migrator.txBody, Migrator.createMigrationsTable, h3, h4] at hrun
  case false =>
  cases h5 : env.lockTableFails
  case true =>
    simp [Migrator.txRun, Migrator.txBody, Migrator.createMigrationsTable, h3, h4, h5] at hrun
  case false =>
  cases h6 : env.readAppliedFails
  case true =>
    simp [Migrator.txRun, Migrator.txBody, Migrator.createMigrationsTable,
      Migrator.getAppliedMigrations, h3, h4, h5, h6] at hrun
  case false =>
  rcases hloop : m.migrateLoop env (st.schemaMigrations.getD []) m.getMigrationFiles
      (st.schemaMigrations.getD []) with ⟨rl, evsl⟩
  cases rl with
  | ok rows =>
    cases h7 : env.commitFails <;>
      simp [Migrator.txRun, Migrator.txBody, Migrator.createMigrationsTable,
        Migrator.getAppliedMigrations, h3, h4, h5, h6, h7, hloop] at hrun
  | error el =>
    cases hu : env.unlockQueryFails <;>
      (simp [Migrator.txRun, Migrator.txBody, Migrator.createMigrationsTable,
         Migrator.getAppliedMigrations, Migrator.unlock, h3, h4, h5, h6, hu, hloop] at hrun;
       obtain ⟨he, hst, htr⟩ := hrun;
       subst he;
       exact ⟨evsl, rfl, by rw [← hst], by rw [← htr]; simp⟩)

/-- A successful run under benign infrastructure came from a successful
pending loop, committed exactly the loop's rows, and traced the bracketed
loop trace with the commit. -/
theorem run_ok_inv (m : Migrator) (env : Env) (st : DBState)
    {st' : DBState} {tr : List Event} (h : env.infraOk = true)
    (hrun : m.Run env st = (.ok (), st', tr)) :
    ∃ rows evs, m.migrateLoop env (st.schemaMigrations.getD []) m.getMigrationFiles
        (st.schemaMigrations.getD []) = (.ok rows, evs) ∧
      st' = ⟨some rows, env.unlockQueryFails⟩ ∧
      tr = [Event.tryLockEv, Event.beginEv, Event.createTableEv, Event.lockTableEv,
        Event.readAppliedEv] ++ evs ++ [Event.commitEv, Event.unlockEv] := by
  rcases hloop : m.migrateLoop env (st.schemaMigrations.getD []) m.getMigrationFiles
      (st.schemaMigrations.getD []) with ⟨rl, evsl⟩
  cases rl with
  | ok rows =>
    have hchar := run_infra_ok m env st h hloop
    rw [hrun] at hchar
    simp only [Prod.mk.injEq] at hchar
    exact ⟨rows, evsl, rfl, hchar.2.1, hchar.2.2⟩
  | error el =>
    have hchar := run_infra_err m env st h hloop
    rw [hrun] at hchar
    simp at hchar

/-- `txBody` fails only in the create, table-lock, read or apply phases. -/
theorem txBody_err_shape (m : Migrator) (env : Env) (tbl : Option (List String))
    {e : RunErr} {evs : List Event} (h : m.txBody env tbl = (.error e, evs)) :
    e = .createTableFailed ∨ e = .lockTableFailed ∨ e = .getAppliedFailed ∨
      ∃ v ea, e = .applyFailed v ea := by
  unfold Migrator.txBody at h
  split at h
  · rename_i ec heq
    unfold Migrator.createMigrationsTable at heq
    split at heq
    · simp only [Except.error.injEq] at heq
      simp only [Prod.mk.injEq, Except.error.injEq] at h
      exact Or.inl (by rw [← h.1, ← heq])
    · simp at heq
  · split at h
    · simp only [Prod.mk.injEq, Except.error.injEq] at h
      exact Or.inr (Or.inl h.1.symm)
    · split at h
      · rename_i ec heq
        unfold Migrator.getAppliedMigrations at heq
        split at heq
        · simp only [Except.error.injEq] at heq
          simp only [Prod.mk.injEq, Except.error.injEq] at h
          exact Or.inr (Or.inr (Or.inl (by rw [← h.1, ← heq])))
        · simp at heq
      · rename_i x1 rows0 heqc hlock x2 applied2 heqa
        rcases hloop : m.migrateLoop env applied2 m.getMigrationFiles rows0
          with ⟨rl, evsl⟩
        rw [hloop] at h
        simp only [Prod.mk.injEq] at h
        exact Or.inr (Or.inr (Or.inr
          (migrateLoop_err_applyFailed m env applied2 m.getMigrationFiles rows0 e evsl
            (by rw [hloop, h.1]))))

/-- The transaction phase never reports the unlock error. -/
theorem txRun_ne_unlockFailed (m : Migrator) (env : Env) (st : DBState) :
    (m.txRun env st).1 ≠ .error .unlockFailed := by
  rcases htx : m.txRun env st with ⟨r, st2, evs⟩
  unfold Migrator.txRun at htx
  split at htx
  · simp only [Prod.mk.injEq] at htx
    rw [← htx.1]
    simp
  · split at htx
    · rename_i e evsb heq
      simp only [Prod.mk.injEq] at htx
      rw [← htx.1]
      rcases txBody_err_shape m env st.schemaMigrations heq with h | h | h | ⟨v, ea, h⟩ <;>
        simp [h]
    · split at htx <;>
        (simp only [Prod.mk.injEq] at htx; rw [← htx.1]; simp)

/-- `applyMigration` reads only the body and insert outcomes of the
environment. -/
theorem applyMigration_env (m : Migrator) (env env' : Env)
    (hx : env'.execOk = env.execOk) (hi : env'.insertFails = env.insertFails)
    (v f : String) (rows : List String) :
    m.applyMigration env' v f rows = m.applyMigration env v f rows := by
  unfold Migrator.applyMigration
  rw [hx, hi]

/-- The pending loop reads only the body and insert outcomes of the
environment. -/
theorem migrateLoop_env (m : Migrator) (env env' : Env)
    (hx : env'.execOk = env.execOk) (hi : env'.insertFails = env.insertFails)
    (applied : List String) : ∀ (files rows : List String),
    m.migrateLoop env' applied files rows = m.migrateLoop env applied files rows := by
  intro files
  induction files with
  | nil => intro rows; rfl
  | cons file rest ih =>
    intro rows
    simp only [Migrator.migrateLoop, applyMigration_env m env env' hx hi, ih]

/-- The transaction phase does not read the unlock outcome of the
environment. -/
theorem txRun_env (m : Migrator) (env env' : Env)
    (h3 : env'.beginFails = env.beginFails) (h4 : env'.createFails = env.createFails)
    (h5 : env'.lockTableFails = env.lockTableFails)
    (h6 : env'.readAppliedFails = env.readAppliedFails)
    (h7 : env'.commitFails = env.commitFails)
    (hx : env'.execOk = env.execOk) (hi : env'.insertFails = env.insertFails)
    (st : DBState) : m.txRun env' st = m.txRun env st := by
  simp only [Migrator.txRun, Migrator.txBody, Migrator.createMigrationsTable,
    Migrator.getAppliedMigrations, h3, h4, h5, h6, h7,
    migrateLoop_env m env env' hx hi]

/-! ### Concrete fixtures -/

/-- A fully benign environment: every database operation succeeds and every
body executes. -/
def envOk : Env :=
  { tryLockQueryFails := false, lockAvailable := true, unlockQueryFails := false,
    beginFails := false, createFails := false, lockTableFails := false,
    readAppliedFails := false, execOk := fun _ => true,
    insertFails := fun _ => false, commitFails := false }

/-- Benign environment in which the advisory lock is held elsewhere. -/
def envContended : Env := { envOk with lockAvailable := false }

/-- Benign environment in which the body `"BAD"` fails to execute. -/
def envBad : Env := { envOk with execOk := fun s => !(s == "BAD") }

/-- A fresh database: no bookkeeping table yet, advisory lock not held. -/
def stEmpty : DBState := ⟨none, false⟩

/-- The ordering example of the spec: three versions listed out of order. -/
def srcThree : Migrator :=
  ⟨[.file "002_x.sql" "beta", .file "001_y.sql" "alpha", .file "010_z.sql" "gamma"]⟩

/-- A flat source whose version order differs from its full-path order. -/
def srcDot : Migrator := ⟨[.file "a.b.sql" "beta", .file "a.sql" "alpha"]⟩

/-- A source with a valid migration followed by a failing one. -/
def srcFail : Migrator :=
  ⟨[.file "001_a.sql" "alpha", .file "002_b.sql" "BAD", .file "003_c.sql" "gamma"]⟩

/-! ### Claims -/

/-- C2: when the advisory-lock query succeeds but reports the lock as taken,
`Run` returns the distinguished "another migration is in progress" error
immediately: the database state is unchanged and the lock-acquisition query
is the only database operation in the trace — no transaction begin, no
bookkeeping-table create, read or write, and no release attempt. -/
theorem run_lock_contention (m : Migrator) (env : Env) (st : DBState)
    (h1 : env.tryLockQueryFails = false) (h2 : env.lockAvailable = false) :
    m.Run env st = (.error .anotherInProgress, st, [Event.tryLockEv]) := by
  simp [Migrator.Run, Migrator.tryLock, h1, h2]

/-- Witness for C2 at a concrete contended environment. -/
theorem run_lock_contention_witness :
    envContended.tryLockQueryFails = false ∧ envContended.lockAvailable = false ∧
    srcThree.Run envContended stEmpty =
      (.error .anotherInProgress, stEmpty, [Event.tryLockEv]) :=
  ⟨rfl, rfl, run_lock_contention srcThree envContended stEmpty rfl rfl⟩

/-- C8: once the advisory lock is acquired, the release is attempted before
`Run` returns on every path — the unlock event appears in every trace — and
the run's result is exactly the transaction phase's result: it is unchanged
under any unlock outcome and is never the unlock error, which is only
logged. -/
theorem run_release_always (m : Migrator) (env : Env) (st : DBState)
    (h1 : env.tryLockQueryFails = false) (h2 : env.lockAvailable = true) :
    Event.unlockEv ∈ (m.Run env st).2.2 ∧
    (m.Run env st).1 = (m.txRun env { st with lockHeld := true }).1 ∧
    (∀ b, (m.Run { env with unlockQueryFails := b } st).1 = (m.Run env st).1) ∧
    (m.Run env st).1 ≠ .error .unlockFailed := by
  have hshape := run_locked m env st h1 h2
  refine ⟨?_, ?_, ?_, ?_⟩
  · rw [hshape]; simp
  · rw [hshape]
  · intro b
    rw [run_locked m { env with unlockQueryFails := b } st h1 h2, hshape]
    rw [txRun_env m env { env with unlockQueryFails := b } rfl rfl rfl rfl rfl rfl rfl
      { st with lockHeld := true }]
  · rw [hshape]
    exact txRun_ne_unlockFailed m env { st with lockHeld := true }

/-- Witness for C8 at a concrete benign environment. -/
theorem run_release_always_witness :
    envOk.tryLockQueryFails = false ∧ envOk.lockAvailable = true ∧
    (Event.unlockEv ∈ (srcThree.Run envOk stEmpty).2.2 ∧
     (srcThree.Run envOk stEmpty).1 =
       (srcThree.txRun envOk { stEmpty with lockHeld := true }).1 ∧
     (∀ b, (srcThree.Run { envOk with unlockQueryFails := b } stEmpty).1 =
       (srcThree.Run envOk stEmpty).1) ∧
     (srcThree.Run envOk stEmpty).1 ≠ .error .unlockFailed) :=
  ⟨rfl, rfl, run_release_always srcThree envOk stEmpty rfl rfl⟩

/-- C9 (amended): `unlock` returns an error exactly when the advisory-unlock
query itself fails at the transport level; the released flag reported by the
call is scanned but never checked, so a successful query that released no
lock still yields success. -/
theorem unlock_error_iff_query_fails (env : Env) (st : DBState) :
    ((Migrator.unlock env st).1 = .error .unlockFailed ↔
      env.unlockQueryFails = true) ∧
    (env.unlockQueryFails = false → st.lockHeld = false →
      (Migrator.unlock env st).1 = .ok ()) := by
  constructor
  · cases hu : env.unlockQueryFails <;> simp [Migrator.unlock, hu]
  · intro hu _
    simp [Migrator.unlock, hu]

/-- Witness for the amended C9: at the concrete no-lock state the unlock
succeeds. -/
theorem unlock_error_iff_query_fails_witness :
    ((Migrator.unlock envOk stEmpty).1 = .error .unlockFailed ↔
      envOk.unlockQueryFails = true) ∧
    (Migrator.unlock envOk stEmpty).1 = .ok () :=
  ⟨(unlock_error_iff_query_fails envOk stEmpty).1,
   (unlock_error_iff_query_fails envOk stEmpty).2 rfl rfl⟩

/-- C9 counterexample: the unlock query succeeds in a session holding no
lock, so the underlying call reports that no lock was released, yet `unlock`
returns success rather than the error the claim requires. -/
theorem unlock_no_lock_released_counterexample :
    stEmpty.lockHeld = false ∧ envOk.unlockQueryFails = false ∧
    (Migrator.unlock envOk stEmpty).1 = .ok () :=
  ⟨rfl, rfl, rfl⟩

/-- C1: a run in which a pending migration's SQL body or its bookkeeping
insert fails returns the `failed to apply migration` error for the first
failing pending file, leaves the bookkeeping table exactly as before — no
record survives, the earlier successfully executed pending entries
included — and attempts nothing past the failing file: the executed bodies
are exactly the pending prefix up to and including it, and the attempted
inserts end with it. -/
theorem run_all_or_nothing (m : Migrator) (env : Env) (st : DBState)
    {v : String} {ea : ApplyErr} {st' : DBState} {tr : List Event}
    (hrun : m.Run env st = (.error (.applyFailed v ea), st', tr))
    (hkind : ea = .execFailed ∨ ea = .insertFailed) :
    st'.schemaMigrations = st.schemaMigrations ∧
    ∃ pre f post,
      pendingOf (st.schemaMigrations.getD []) m.getMigrationFiles = pre ++ f :: post ∧
      v = versionOf f ∧
      execFiles tr = pre ++ [f] ∧
      insertVersions tr = pre.map versionOf ++
        (if ea = .insertFailed then [versionOf f] else []) := by
  obtain ⟨evs, hloop, hst, htr⟩ := run_applyFailed_inv m env st hrun
  subst htr
  obtain ⟨pre, f, post, hp1, hp2, hp3, hp4⟩ :=
    migrateLoop_err m env (st.schemaMigrations.getD []) m.getMigrationFiles
      (st.schemaMigrations.getD []) v ea evs hloop
  refine ⟨hst, pre, f, post, hp1, hp2, ?_, ?_⟩
  · have hsplit : execFiles ([Event.tryLockEv, Event.beginEv, Event.createTableEv,
        Event.lockTableEv, Event.readAppliedEv] ++ evs ++
          [Event.rollbackEv, Event.unlockEv]) = execFiles evs := by
      simp [execFiles_append, execFiles]
    rw [hsplit]
    rcases hkind with hk | hk <;> subst hk <;> exact hp3
  · have hsplit : insertVersions ([Event.tryLockEv, Event.beginEv, Event.createTableEv,
        Event.lockTableEv, Event.readAppliedEv] ++ evs ++
          [Event.rollbackEv, Event.unlockEv]) = insertVersions evs := by
      simp [insertVersions_append, insertVersions]
    rw [hsplit]
    rcases hkind with hk | hk <;> subst hk
    · simpa using hp4
    · simpa using hp4

/-- Witness for C1: the middle migration's body fails, the first one's
insert is rolled back with it, and the third is never attempted. -/
theorem run_all_or_nothing_witness :
    srcFail.Run envBad stEmpty = (.error (.applyFailed "002_b" .execFailed), stEmpty,
      [Event.tryLockEv, Event.beginEv, Event.createTableEv, Event.lockTableEv,
       Event.readAppliedEv, Event.execBodyEv "001_a.sql", Event.insertEv "001_a",
       Event.execBodyEv "002_b.sql", Event.rollbackEv, Event.unlockEv]) ∧
    (stEmpty.schemaMigrations = stEmpty.schemaMigrations ∧
     ∃ pre f post,
       pendingOf (stEmpty.schemaMigrations.getD []) srcFail.getMigrationFiles =
         pre ++ f :: post ∧
       "002_b" = versionOf f ∧
       execFiles [Event.tryLockEv, Event.beginEv, Event.createTableEv, Event.lockTableEv,
         Event.readAppliedEv, Event.execBodyEv "001_a.sql", Event.insertEv "001_a",
         Event.execBodyEv "002_b.sql", Event.rollbackEv, Event.unlockEv] = pre ++ [f] ∧
       insertVersions [Event.tryLockEv, Event.beginEv, Event.createTableEv, Event.lockTableEv,
         Event.readAppliedEv, Event.execBodyEv "001_a.sql", Event.insertEv "001_a",
         Event.execBodyEv "002_b.sql", Event.rollbackEv, Event.unlockEv] =
           pre.map versionOf ++
             (if (ApplyErr.execFailed = ApplyErr.insertFailed) then [versionOf f] else [])) :=
  ⟨by decide, run_all_or_nothing srcFail envBad stEmpty (by decide) (Or.inl rfl)⟩

/-- The pending list inherits the ascending path order of
`getMigrationFiles`. -/
theorem pendingOf_sorted (applied : List String) (m : Migrator) :
    List.Pairwise (· ≤ ·) (pendingOf applied m.getMigrationFiles) :=
  (sortStrings_sorted (walkList "" m.migrations)).filter _

/-- C3: from a fresh database, a successful run executes each source file's
body exactly once — the executed bodies are exactly the migration files and
the executed versions carry no duplicate — and a second run over the
resulting state succeeds as a no-op: no body executed, no version inserted,
bookkeeping rows unchanged. -/
theorem run_idempotent (m : Migrator) (env : Env) (st : DBState)
    {st1 : DBState} {tr1 : List Event}
    (h : env.infraOk = true) (hfresh : st.schemaMigrations = none)
    (hrun : m.Run env st = (.ok (), st1, tr1)) :
    execFiles tr1 = m.getMigrationFiles ∧
    ((execFiles tr1).map versionOf).Nodup ∧
    ∃ st2 tr2, m.Run env st1 = (.ok (), st2, tr2) ∧
      st2.schemaMigrations = st1.schemaMigrations ∧
      execFiles tr2 = [] ∧ insertVersions tr2 = [] := by
  obtain ⟨rows, evs, hloop, hst, htr⟩ := run_ok_inv m env st h hrun
  rw [hfresh] at hloop
  have hloop' : m.migrateLoop env [] m.getMigrationFiles [] = (.ok rows, evs) := hloop
  obtain ⟨hrows, hevs, hnd⟩ :=
    migrateLoop_ok m env [] m.getMigrationFiles [] rows evs hloop'
  have hpend : pendingOf [] m.getMigrationFiles = m.getMigrationFiles := by
    simp [pendingOf]
  rw [hpend] at hrows hevs
  rw [List.nil_append] at hrows
  have hexec : execFiles tr1 = m.getMigrationFiles := by
    rw [htr]
    have hsplit : execFiles ([Event.tryLockEv, Event.beginEv, Event.createTableEv,
        Event.lockTableEv, Event.readAppliedEv] ++ evs ++
          [Event.commitEv, Event.unlockEv]) = execFiles evs := by
      simp [execFiles_append, execFiles]
    rw [hsplit, hevs, execFiles_blocks]
  refine ⟨hexec, ?_, ?_⟩
  · rw [hexec, ← hrows]
    exact hnd List.nodup_nil
  · have hall : ∀ f ∈ m.getMigrationFiles, rows.contains (versionOf f) = true := by
      intro f hf
      have : versionOf f ∈ rows := by
        rw [hrows]
        exact List.mem_map_of_mem versionOf hf
      simpa using this
    have hloop2 : m.migrateLoop env (st1.schemaMigrations.getD [])
        m.getMigrationFiles (st1.schemaMigrations.getD []) =
          (.ok (st1.schemaMigrations.getD []), []) := by
      rw [hst]
      exact migrateLoop_all_applied m env rows m.getMigrationFiles rows hall
    have h2 := run_infra_ok m env st1 h hloop2
    refine ⟨_, _, h2, ?_, ?_, ?_⟩
    · rw [hst]; simp
    · simp [execFiles_append, execFiles]
    · simp [insertVersions_append, insertVersions]

/-- Witness for C3 over the three-file source. -/
theorem run_idempotent_witness :
    envOk.infraOk = true ∧ stEmpty.schemaMigrations = none ∧
    srcThree.Run envOk stEmpty = (.ok (),
      ⟨some ["001_y", "002_x", "010_z"], false⟩,
      [Event.tryLockEv, Event.beginEv, Event.createTableEv, Event.lockTableEv,
       Event.readAppliedEv, Event.execBodyEv "001_y.sql", Event.insertEv "001_y",
       Event.execBodyEv "002_x.sql", Event.insertEv "002_x",
       Event.execBodyEv "010_z.sql", Event.insertEv "010_z",
       Event.commitEv, Event.unlockEv]) ∧
    (execFiles [Event.tryLockEv, Event.beginEv, Event.createTableEv, Event.lockTableEv,
       Event.readAppliedEv, Event.execBodyEv "001_y.sql", Event.insertEv "001_y",
       Event.execBodyEv "002_x.sql", Event.insertEv "002_x",
       Event.execBodyEv "010_z.sql", Event.insertEv "010_z",
       Event.commitEv, Event.unlockEv] = srcThree.getMigrationFiles ∧
     ((execFiles [Event.tryLockEv, Event.beginEv, Event.createTableEv, Event.lockTableEv,
       Event.readAppliedEv, Event.execBodyEv "001_y.sql", Event.insertEv "001_y",
       Event.execBodyEv "002_x.sql", Event.insertEv "002_x",
       Event.execBodyEv "010_z.sql", Event.insertEv "010_z",
       Event.commitEv, Event.unlockEv]).map versionOf).Nodup ∧
     ∃ st2 tr2, srcThree.Run envOk ⟨some ["001_y", "002_x", "010_z"], false⟩ =
         (.ok (), st2, tr2) ∧
       st2.schemaMigrations = (⟨some ["001_y", "002_x", "010_z"], false⟩ : DBState).schemaMigrations ∧
       execFiles tr2 = [] ∧ insertVersions tr2 = []) :=
  ⟨rfl, rfl, by decide,
   run_idempotent srcThree envOk stEmpty rfl rfl (by decide)⟩

/-- C4 (amended): under benign infrastructure a successful run applies the
pending migrations sorted ascending by the full path string — the name with
its `".sql"` extension and any directory components, not the version
string: the trace is the infrastructure bracket around one block per
pending file, its body followed by its bookkeeping insert, and the pending
list is `≤`-sorted as path strings. -/
theorem run_applies_in_path_order (m : Migrator) (env : Env) (st : DBState)
    {st' : DBState} {tr : List Event} (h : env.infraOk = true)
    (hrun : m.Run env st = (.ok (), st', tr)) :
    tr = [Event.tryLockEv, Event.beginEv, Event.createTableEv, Event.lockTableEv,
        Event.readAppliedEv] ++
      ((pendingOf (st.schemaMigrations.getD []) m.getMigrationFiles).map
        applyEvents).flatten ++
      [Event.commitEv, Event.unlockEv] ∧
    List.Pairwise (· ≤ ·) (pendingOf (st.schemaMigrations.getD []) m.getMigrationFiles) := by
  obtain ⟨rows, evs, hloop, hst, htr⟩ := run_ok_inv m env st h hrun
  obtain ⟨_, hevs, _⟩ := migrateLoop_ok m env _ _ _ _ _ hloop
  exact ⟨by rw [htr, hevs], pendingOf_sorted _ m⟩

/-- Witness for the amended C4: the spec's three-version example is applied
as `001_y`, `002_x`, `010_z`. -/
theorem run_applies_in_path_order_witness :
    envOk.infraOk = true ∧
    srcThree.Run envOk stEmpty = (.ok (),
      ⟨some ["001_y", "002_x", "010_z"], false⟩,
      [Event.tryLockEv, Event.beginEv, Event.createTableEv, Event.lockTableEv,
       Event.readAppliedEv, Event.execBodyEv "001_y.sql", Event.insertEv "001_y",
       Event.execBodyEv "002_x.sql", Event.insertEv "002_x",
       Event.execBodyEv "010_z.sql", Event.insertEv "010_z",
       Event.commitEv, Event.unlockEv]) ∧
    ([Event.tryLockEv, Event.beginEv, Event.createTableEv, Event.lockTableEv,
       Event.readAppliedEv, Event.execBodyEv "001_y.sql", Event.insertEv "001_y",
       Event.execBodyEv "002_x.sql", Event.insertEv "002_x",
       Event.execBodyEv "010_z.sql", Event.insertEv "010_z",
       Event.commitEv, Event.unlockEv] =
      [Event.tryLockEv, Event.beginEv, Event.createTableEv, Event.lockTableEv,
        Event.readAppliedEv] ++
      ((pendingOf (stEmpty.schemaMigrations.getD []) srcThree.getMigrationFiles).map
        applyEvents).flatten ++
      [Event.commitEv, Event.unlockEv] ∧
     List.Pairwise (· ≤ ·)
       (pendingOf (stEmpty.schemaMigrations.getD []) srcThree.getMigrationFiles)) :=
  ⟨rfl, by decide,
   @run_applies_in_path_order srcThree envOk stEmpty
     ⟨some ["001_y", "002_x", "010_z"], false⟩
     [Event.tryLockEv, Event.beginEv, Event.createTableEv, Event.lockTableEv,
      Event.readAppliedEv, Event.execBodyEv "001_y.sql", Event.insertEv "001_y",
      Event.execBodyEv "002_x.sql", Event.insertEv "002_x",
      Event.execBodyEv "010_z.sql", Event.insertEv "010_z",
      Event.commitEv, Event.unlockEv] rfl (by decide)⟩

/-- C4 counterexample: for the flat source `a.b.sql`, `a.sql` the pending
versions satisfy `"a" < "a.b"`, yet the run executes the body of `a.b.sql`
(version `a.b`) before the body of `a.sql` (version `a`) — the loop follows
the full-path order, in which `a.b.sql` sorts first, not the version
order. -/
theorem run_version_order_counterexample :
    execFiles (srcDot.Run envOk stEmpty).2.2 = ["a.b.sql", "a.sql"] ∧
    versionOf "a.b.sql" = "a.b" ∧ versionOf "a.sql" = "a" ∧
    ("a" : String) < "a.b" := by
  refine ⟨by decide, by decide, by decide, ?_⟩
  have h1 : lexLe "a" "a.b" = true := by decide
  have h2 : ("a" : String) ≠ "a.b" := by decide
  exact lt_of_le_of_ne ((lexLe_iff _ _).mp h1) h2

/-! ### Claims on the configurable, context-aware version -/

/-- C6 (spec-modelled constructor): construction succeeds exactly when both
the database handle and the migration source are present; an absent handle
or source fails fast with the configuration error naming it. -/
theorem newC_validates_inputs (db : Option Unit) (migrations : Option (List FSNode))
    (opts : List MOption) :
    ((∃ mm, NewC db migrations opts = .ok mm) ↔ (db ≠ none ∧ migrations ≠ none)) ∧
    (db = none → NewC db migrations opts = .error .nilDB) ∧
    (∀ d, db = some d → migrations = none →
      NewC db migrations opts = .error .nilMigrations) := by
  refine ⟨?_, ?_, ?_⟩
  · cases db <;> cases migrations <;> simp [NewC]
  · intro h; subst h; rfl
  · intro d hd hmig; subst hd; subst hmig; rfl

/-- Witness for C6: presence of both yields a migrator, an absent handle or
source yields its configuration error. -/
theorem newC_validates_inputs_witness :
    (∃ mm, NewC (some ()) (some srcThree.migrations) [] = .ok mm) ∧
    NewC none (some srcThree.migrations) [] = .error .nilDB ∧
    NewC (some ()) (none : Option (List FSNode)) [] = .error .nilMigrations :=
  ⟨((newC_validates_inputs (some ()) (some srcThree.migrations) []).1).mpr
      (by simp),
   (newC_validates_inputs none (some srcThree.migrations) []).2.1 rfl,
   (newC_validates_inputs (some ()) none []).2.2 () rfl rfl⟩

/-- C7 (spec-modelled run): with an already-cancelled context the run fails
with the cancellation error before acquiring the lock or touching any
table: the state — tables and held locks — is exactly the initial one and
no database operation is traced. -/
theorem runCtx_cancelled (m : MigratorC) (env : CEnv) (st : CState)
    (h : env.cancelled = true) :
    m.Run env st = (.error .ctxCancelled, st, []) := by
  simp [MigratorC.Run, h]

/-- Fixtures for the configurable runs. -/
def envCtx : CEnv := ⟨false, fun _ => true, fun _ => true⟩

/-- Cancelled-context variant of `envCtx`. -/
def envCtxCancelled : CEnv := ⟨true, fun _ => true, fun _ => true⟩

/-- A configurable migrator with overridden table name and lock id. -/
def mCustom : MigratorC := ⟨[.file "001_a.sql" "body"], ⟨"custom", 99999⟩⟩

/-- An empty configurable-run state. -/
def stCtx : CState := ⟨[], []⟩

/-- Witness for C7 at a concrete cancelled context. -/
theorem runCtx_cancelled_witness :
    envCtxCancelled.cancelled = true ∧
    mCustom.Run envCtxCancelled stCtx = (.error .ctxCancelled, stCtx, []) :=
  ⟨rfl, runCtx_cancelled mCustom envCtxCancelled stCtx rfl⟩

/-- The rows of the named table are unchanged for any other name, and set
for the named one. -/
theorem lookupTable_setTable_self (ts : List (String × List String))
    (name : String) (rows : List String) :
    lookupTable (setTable ts name rows) name = some rows := by
  induction ts with
  | nil => simp [setTable, lookupTable, List.find?]
  | cons p rest ih =>
    cases hp : (p.1 == name) with
    | true =>
      have hs : setTable (p :: rest) name rows = (name, rows) :: rest := by
        simp [setTable, hp]
      rw [hs]
      simp [lookupTable, List.find?]
    | false =>
      have hs : setTable (p :: rest) name rows = p :: setTable rest name rows := by
        simp [setTable, hp]
      rw [hs]
      have hl : lookupTable (p :: setTable rest name rows) name =
          lookupTable (setTable rest name rows) name := by
        simp [lookupTable, List.find?, hp]
      rw [hl]
      exact ih

/-- Setting one table does not touch another. -/
theorem lookupTable_setTable_ne (ts : List (String × List String))
    (name other : String) (rows : List String) (h : other ≠ name) :
    lookupTable (setTable ts name rows) other = lookupTable ts other := by
  have hno : (name == other) = false := by
    rw [beq_eq_false_iff_ne]
    exact Ne.symm h
  induction ts with
  | nil => simp [setTable, lookupTable, List.find?, hno]
  | cons p rest ih =>
    cases hp : (p.1 == name) with
    | true =>
      have hs : setTable (p :: rest) name rows = (name, rows) :: rest := by
        simp [setTable, hp]
      rw [hs]
      have hpn : p.1 = name := by simpa using hp
      have hpo : (p.1 == other) = false := by rw [hpn]; exact hno
      simp [lookupTable, List.find?, hno, hpo]
    | false =>
      have hs : setTable (p :: rest) name rows = p :: setTable rest name rows := by
        simp [setTable, hp]
      rw [hs]
      cases hpo : (p.1 == other) with
      | true => simp [lookupTable, List.find?, hpo]
      | false =>
        have h1 : lookupTable (p :: setTable rest name rows) other =
            lookupTable (setTable rest name rows) other := by
          simp [lookupTable, List.find?, hpo]
        have h2 : lookupTable (p :: rest) other = lookupTable rest other := by
          simp [lookupTable, List.find?, hpo]
        rw [h1, h2]
        exact ih

/-- Every event of the configurable pending loop addresses at most the
configured table and no lock. -/
theorem cLoop_events (env : CEnv) (fsys : List FSNode) (tbl : String)
    (applied : List String) : ∀ (files rows : List String),
    ∀ ev ∈ (cLoop env fsys tbl applied files rows).2,
      (∀ n, CEvent.tableOf ev = some n → n = tbl) ∧
      (∀ i, CEvent.lockOf ev = some i → False) := by
  intro files
  induction files with
  | nil => intro rows ev hev; simp [cLoop] at hev
  | cons file rest ih =>
    intro rows ev hev
    simp only [cLoop] at hev
    split at hev
    · exact ih rows ev hev
    · split at hev
      · simp at hev
      · split at hev
        · split at hev
          · simp only [List.mem_cons] at hev
            rcases hev with h | h | h
            · subst h; exact ⟨by simp [CEvent.tableOf], by simp [CEvent.lockOf]⟩
            · subst h
              exact ⟨by simp [CEvent.tableOf], by simp [CEvent.lockOf]⟩
            · simp at h
          · rcases hcl : cLoop env fsys tbl applied rest (rows ++ [versionOf file])
              with ⟨r2, evs2⟩
            rw [hcl] at hev
            simp only [List.cons_append, List.nil_append, List.mem_cons] at hev
            rcases hev with h | h | h
            · subst h; exact ⟨by simp [CEvent.tableOf], by simp [CEvent.lockOf]⟩
            · subst h
              exact ⟨by simp [CEvent.tableOf], by simp [CEvent.lockOf]⟩
            · have := ih (rows ++ [versionOf file]) ev (by rw [hcl]; exact h)
              exact this
        · simp only [List.mem_singleton] at hev
          subst hev
          exact ⟨by simp [CEvent.tableOf], by simp [CEvent.lockOf]⟩

/-- C5 (spec-modelled run, options embedded from options.go): constructing
with a table-name override and a lock-identifier override makes every
database operation of the run address only the overridden table name and
only the overridden lock identifier; on the contention-free path the run
acquires and releases the overridden lock; and the default
`schema_migrations` table is never touched. -/
theorem runCtx_custom_config (fsys : List FSNode) (t : String) (l : Int)
    (env : CEnv) (st : CState) (m : MigratorC)
    (hm : NewC (some ()) (some fsys) [WithTableName t, WithLockID l] = .ok m)
    (ht : t ≠ "schema_migrations") (hl : l ≠ 5764249691895432819)
    (hc : env.cancelled = false) :
    (∀ ev ∈ (m.Run env st).2.2,
      (∀ n, CEvent.tableOf ev = some n → n = t) ∧
      (∀ i, CEvent.lockOf ev = some i → i = l)) ∧
    (env.lockAvailable l = true →
      CEvent.ctryLock l ∈ (m.Run env st).2.2 ∧
      CEvent.cunlock l ∈ (m.Run env st).2.2) ∧
    lookupTable (m.Run env st).2.1.tables "schema_migrations" =
      lookupTable st.tables "schema_migrations" ∧
    (∀ ev ∈ (m.Run env st).2.2,
      CEvent.tableOf ev ≠ some "schema_migrations" ∧
      CEvent.lockOf ev ≠ some (5764249691895432819 : Int)) := by
  suffices hmain : (∀ ev ∈ (m.Run env st).2.2,
      (∀ n, CEvent.tableOf ev = some n → n = t) ∧
      (∀ i, CEvent.lockOf ev = some i → i = l)) ∧
    (env.lockAvailable l = true →
      CEvent.ctryLock l ∈ (m.Run env st).2.2 ∧
      CEvent.cunlock l ∈ (m.Run env st).2.2) ∧
    lookupTable (m.Run env st).2.1.tables "schema_migrations" =
      lookupTable st.tables "schema_migrations" by
    exact ⟨hmain.1, hmain.2.1, hmain.2.2, fun ev hev =>
      ⟨fun hcontra => ht ((hmain.1 ev hev).1 _ hcontra).symm,
       fun hcontra => hl ((hmain.1 ev hev).2 _ hcontra).symm⟩⟩
  have hmeq : m = ⟨fsys, ⟨t, l⟩⟩ := by
    rw [show NewC (some ()) (some fsys) [WithTableName t, WithLockID l] =
      Except.ok ⟨fsys, ⟨t, l⟩⟩ from rfl] at hm
    exact (Except.ok.inj hm).symm
  subst hmeq
  have hpre : ∀ ev ∈ [CEvent.ctryLock l, CEvent.cbegin, CEvent.ccreate t,
      CEvent.clockTable t, CEvent.cread t],
      (∀ n, CEvent.tableOf ev = some n → n = t) ∧
      (∀ i, CEvent.lockOf ev = some i → i = l) := by
    intro ev hev
    simp only [List.mem_cons, List.not_mem_nil, or_false] at hev
    rcases hev with h|h|h|h|h <;> subst h
    · exact ⟨fun n hn => Option.noConfusion hn, fun i hi => (Option.some.inj hi).symm⟩
    · exact ⟨fun n hn => Option.noConfusion hn, fun i hi => Option.noConfusion hi⟩
    · exact ⟨fun n hn => (Option.some.inj hn).symm, fun i hi => Option.noConfusion hi⟩
    · exact ⟨fun n hn => (Option.some.inj hn).symm, fun i hi => Option.noConfusion hi⟩
    · exact ⟨fun n hn => (Option.some.inj hn).symm, fun i hi => Option.noConfusion hi⟩
  cases hla : env.lockAvailable l with
  | false =>
    have hrun : MigratorC.Run ⟨fsys, ⟨t, l⟩⟩ env st =
        (.error .inProgress, st, [CEvent.ctryLock l]) := by
      simp [MigratorC.Run, hc, hla]
    rw [hrun]
    refine ⟨?_, ?_, rfl⟩
    · intro ev hev
      simp only [List.mem_singleton] at hev
      subst hev
      exact ⟨fun n hn => Option.noConfusion hn, fun i hi => (Option.some.inj hi).symm⟩
    · intro hcontra
      exact Bool.noConfusion hcontra
  | true =>
    rcases hcl : cLoop env fsys t ((lookupTable st.tables t).getD [])
        (sortStrings (walkList "" fsys)) ((lookupTable st.tables t).getD [])
      with ⟨r, evs⟩
    have hloopEv : ∀ ev ∈ evs,
        (∀ n, CEvent.tableOf ev = some n → n = t) ∧
        (∀ i, CEvent.lockOf ev = some i → i = l) := by
      intro ev hev
      have := cLoop_events env fsys t ((lookupTable st.tables t).getD [])
        (sortStrings (walkList "" fsys)) ((lookupTable st.tables t).getD []) ev
        (by rw [hcl]; exact hev)
      exact ⟨this.1, fun i hi => (this.2 i hi).elim⟩
    cases r with
    | error e =>
      have hrun : MigratorC.Run ⟨fsys, ⟨t, l⟩⟩ env st = (.error e,
          ⟨st.tables, st.heldLocks⟩,
          [CEvent.ctryLock l, CEvent.cbegin, CEvent.ccreate t, CEvent.clockTable t,
            CEvent.cread t] ++ evs ++ [CEvent.crollback, CEvent.cunlock l]) := by
        simp [MigratorC.Run, hc, hla, hcl]
      rw [hrun]
      refine ⟨?_, fun _ => ⟨by simp, by simp⟩, rfl⟩
      intro ev hev
      rw [List.mem_append] at hev
      rcases hev with hev | hev
      · rw [List.mem_append] at hev
        rcases hev with hev | hev
        · exact hpre ev hev
        · exact hloopEv ev hev
      · simp only [List.mem_cons, List.not_mem_nil, or_false] at hev
        rcases hev with h | h <;> subst h
        · exact ⟨fun n hn => Option.noConfusion hn, fun i hi => Option.noConfusion hi⟩
        · exact ⟨fun n hn => Option.noConfusion hn, fun i hi => (Option.some.inj hi).symm⟩
    | ok rows =>
      have hrun : MigratorC.Run ⟨fsys, ⟨t, l⟩⟩ env st = (.ok (),
          ⟨setTable st.tables t rows, st.heldLocks⟩,
          [CEvent.ctryLock l, CEvent.cbegin, CEvent.ccreate t, CEvent.clockTable t,
            CEvent.cread t] ++ evs ++ [CEvent.ccommit, CEvent.cunlock l]) := by
        simp [MigratorC.Run, hc, hla, hcl]
      rw [hrun]
      refine ⟨?_, fun _ => ⟨by simp, by simp⟩, ?_⟩
      · intro ev hev
        rw [List.mem_append] at hev
        rcases hev with hev | hev
        · rw [List.mem_append] at hev
          rcases hev with hev | hev
          · exact hpre ev hev
          · exact hloopEv ev hev
        · simp only [List.mem_cons, List.not_mem_nil, or_false] at hev
          rcases hev with h | h <;> subst h
          · exact ⟨fun n hn => Option.noConfusion hn, fun i hi => Option.noConfusion hi⟩
          · exact ⟨fun n hn => Option.noConfusion hn, fun i hi => (Option.some.inj hi).symm⟩
      · exact lookupTable_setTable_ne st.tables t "schema_migrations" rows (Ne.symm ht)

/-- Witness for C5: at the `custom`/`99999` overrides, the run touches only
the overridden table and lock and leaves `schema_migrations` alone. -/
theorem runCtx_custom_config_witness :
    NewC (some ()) (some [FSNode.file "001_a.sql" "body"])
      [WithTableName "custom", WithLockID 99999] = .ok mCustom ∧
    ("custom" : String) ≠ "schema_migrations" ∧
    (99999 : Int) ≠ 5764249691895432819 ∧ envCtx.cancelled = false ∧
    ((∀ ev ∈ (mCustom.Run envCtx stCtx).2.2,
        (∀ n, CEvent.tableOf ev = some n → n = "custom") ∧
        (∀ i, CEvent.lockOf ev = some i → i = 99999)) ∧
      (envCtx.lockAvailable 99999 = true →
        CEvent.ctryLock 99999 ∈ (mCustom.Run envCtx stCtx).2.2 ∧
        CEvent.cunlock 99999 ∈ (mCustom.Run envCtx stCtx).2.2) ∧
      lookupTable (mCustom.Run envCtx stCtx).2.1.tables "schema_migrations" =
        lookupTable stCtx.tables "schema_migrations" ∧
      (∀ ev ∈ (mCustom.Run envCtx stCtx).2.2,
        CEvent.tableOf ev ≠ some "schema_migrations" ∧
        CEvent.lockOf ev ≠ some (5764249691895432819 : Int))) :=
  ⟨rfl, by decide, by decide, rfl,
   runCtx_custom_config [FSNode.file "001_a.sql" "body"] "custom" 99999 envCtx stCtx
     mCustom rfl (by decide) (by decide) rfl⟩

/-! ### Characterization of `getMigrationFiles`: walk versus path lookup -/

/-- A legal `fs.FS` entry name: non-empty and slash-free. -/
def validName (s : String) : Bool :=
  (s != "") && !(s.data.contains '/')

mutual

/-- Every name in the node is a legal `fs.FS` entry name. -/
def nodeWF : FSNode → Bool
  | .file nm _ => validName nm
  | .dir nm ch => validName nm && listWF ch

/-- Every name in the forest is a legal `fs.FS` entry name. -/
def listWF : List FSNode → Bool
  | [] => true
  | n :: ns => nodeWF n && listWF ns

end

/-- Joins path components with slashes — the inverse of `splitPath`. -/
def joinComps : List String → String
  | [] => ""
  | [c] => c
  | c :: rest => c ++ "/" ++ joinComps rest

/-- Two strings with the same characters are equal. -/
theorem stringDataEq {a b : String} (h : a.data = b.data) : a = b := by
  cases a
  cases b
  exact congrArg String.mk h

/-- A separator-free list is one single chunk. -/
theorem splitChars_no_sep (sep : Char) :
    ∀ (l : List Char), (∀ c ∈ l, c ≠ sep) → splitChars sep l = [l] := by
  intro l
  induction l with
  | nil => intro _; rfl
  | cons c cs ih =>
    intro h
    have hc : ¬ c = sep := h c (by simp)
    simp only [splitChars, if_neg hc]
    rw [ih (fun x hx => h x (by simp [hx]))]

/-- Splitting at the first separator peels the leading chunk. -/
theorem splitChars_append (sep : Char) :
    ∀ (a b : List Char), (∀ c ∈ a, c ≠ sep) →
      splitChars sep (a ++ sep :: b) = a :: splitChars sep b := by
  intro a
  induction a with
  | nil => intro b _; simp [splitChars]
  | cons c a2 ih =>
    intro b h
    have hc : ¬ c = sep := h c (by simp)
    simp only [List.cons_append, splitChars, if_neg hc, List.append_eq]
    rw [ih b (fun x hx => h x (by simp [hx]))]

/-- `splitChars` never produces the empty list of chunks. -/
theorem splitChars_ne_nil (sep : Char) : ∀ (l : List Char), splitChars sep l ≠ [] := by
  intro l
  induction l with
  | nil => simp [splitChars]
  | cons c cs ih =>
    by_cases hc : c = sep
    · simp [splitChars, hc]
    · simp only [splitChars, if_neg hc]
      rcases hsp : splitChars sep cs with _ | ⟨g, gs⟩
      · exact absurd hsp ih
      · simp

/-- The path components are never the empty list. -/
theorem splitPath_ne_nil (p : String) : splitPath p ≠ [] := by
  unfold splitPath
  intro h
  exact splitChars_ne_nil '/' p.data (by simpa using h)

/-- `takeWhile` never crosses an element that fails the predicate. -/
theorem takeWhile_append_stop (p : Char → Bool) (x : Char) (hx : p x = false) :
    ∀ (a c : List Char), (a ++ x :: c).takeWhile p = a.takeWhile p := by
  intro a c
  induction a with
  | nil => simp [List.takeWhile, hx]
  | cons y a2 ih =>
    cases hy : p y <;> simp [List.takeWhile, hy, ih]

/-- `dropWhile` stays inside a block holding a failing element. -/
theorem dropWhile_append_of_exists (p : Char → Bool) :
    ∀ (a b : List Char), (∃ y ∈ a, p y = false) →
      (a ++ b).dropWhile p = a.dropWhile p ++ b := by
  intro a
  induction a with
  | nil => intro b h; simp at h
  | cons y a2 ih =>
    intro b h
    cases hy : p y
    · simp [List.dropWhile, hy]
    · simp only [List.cons_append, List.dropWhile, hy]
      apply ih
      rcases h with ⟨z, hz, hzp⟩
      rcases List.mem_cons.mp hz with rfl | hz2
      · rw [hy] at hzp; cases hzp
      · exact ⟨z, hz2, hzp⟩

/-- `dropWhile` keeps a failing element. -/
theorem dropWhile_ne_nil_of_exists (p : Char → Bool) :
    ∀ (l : List Char), (∃ y ∈ l, p y = false) → l.dropWhile p ≠ [] := by
  intro l
  induction l with
  | nil => intro h; simp at h
  | cons y l2 ih =>
    intro h
    cases hy : p y
    · simp [List.dropWhile, hy]
    · simp only [List.dropWhile, hy]
      apply ih
      rcases h with ⟨z, hz, hzp⟩
      rcases List.mem_cons.mp hz with rfl | hz2
      · rw [hy] at hzp; cases hzp
      · exact ⟨z, hz2, hzp⟩

/-- `dropWhile` is the identity when every element fails the predicate. -/
theorem dropWhile_eq_self_of_all (p : Char → Bool) :
    ∀ (l : List Char), (∀ y ∈ l, p y = false) → l.dropWhile p = l := by
  intro l
  induction l with
  | nil => intro _; rfl
  | cons y l2 _ =>
    intro h
    simp [List.dropWhile, h y (by simp)]

/-- `takeWhile` is the identity when every element satisfies the predicate. -/
theorem takeWhile_eq_self_of_all (p : Char → Bool) :
    ∀ (l : List Char), (∀ y ∈ l, p y = true) → l.takeWhile p = l := by
  intro l
  induction l with
  | nil => intro _; rfl
  | cons y l2 ih =>
    intro h
    simp only [List.takeWhile, h y (by simp)]
    rw [ih (fun z hz => h z (by simp [hz]))]

/-- Unfolding of `validName`. -/
theorem validName_spec {s : String} (h : validName s = true) :
    s ≠ "" ∧ ∀ ch ∈ s.data, ch ≠ '/' := by
  simp only [validName, Bool.and_eq_true, bne_iff_ne, Bool.not_eq_true'] at h
  refine ⟨h.1, fun ch hch hcontra => ?_⟩
  have h2 := h.2
  rw [hcontra] at hch
  simp at h2
  exact h2 hch

/-- `joinComps` over a cons with a non-empty tail. -/
theorem joinComps_cons (c : String) (rest : List String) (h : rest ≠ []) :
    joinComps (c :: rest) = c ++ "/" ++ joinComps rest := by
  cases rest with
  | nil => exact absurd rfl h
  | cons r rs => rfl

/-- Splitting and rejoining on the separator is the identity. -/
theorem joinComps_splitPath (p : String) : joinComps (splitPath p) = p := by
  suffices haux : ∀ l : List Char,
      joinComps ((splitChars '/' l).map (fun x => (⟨x⟩ : String))) = ⟨l⟩ by
    exact haux p.data
  intro l
  induction l with
  | nil => rfl
  | cons c cs ih =>
    by_cases hc : c = '/'
    · subst hc
      simp only [splitChars, eq_self_iff_true, if_true, List.map_cons]
      rcases hsp : splitChars '/' cs with _ | ⟨g, gs⟩
      · exact absurd hsp (splitChars_ne_nil '/' cs)
      · rw [hsp] at ih
        apply stringDataEq
        have hdata := congrArg String.data ih
        simp only [List.map_cons, joinComps, String.data_append] at hdata ⊢
        simp only [List.append_assoc, List.cons_append, List.nil_append] at hdata ⊢
        rw [hdata]
    · simp only [splitChars, if_neg hc]
      rcases hsp : splitChars '/' cs with _ | ⟨g, gs⟩
      · exact absurd hsp (splitChars_ne_nil '/' cs)
      · rw [hsp] at ih
        cases gs with
        | nil =>
          have hg : g = cs := by
            have hdata := congrArg String.data ih
            simpa [joinComps] using hdata
          simp only [List.map_cons, List.map_nil, joinComps]
          exact stringDataEq (by simp [hg])
        | cons g2 gs2 =>
          apply stringDataEq
          have hdata := congrArg String.data ih
          simp only [List.map_cons, joinComps, String.data_append] at hdata ⊢
          simp only [List.append_assoc, List.cons_append, List.nil_append] at hdata ⊢
          rw [hdata]

/-- Rejoining and splitting valid components is the identity. -/
theorem splitPath_joinComps : ∀ (comps : List String), comps ≠ [] →
    (∀ s ∈ comps, validName s = true) → splitPath (joinComps comps) = comps := by
  intro comps
  induction comps with
  | nil => intro h _; exact absurd rfl h
  | cons c rest ih =>
    intro _ hv
    have hcne : ∀ ch ∈ c.data, ch ≠ '/' := (validName_spec (hv c (by simp))).2
    cases rest with
    | nil =>
      simp only [joinComps]
      unfold splitPath
      rw [splitChars_no_sep '/' c.data hcne]
      simp
    | cons r rs =>
      rw [joinComps_cons c (r :: rs) (by simp)]
      unfold splitPath
      rw [show (c ++ "/" ++ joinComps (r :: rs)).data =
        c.data ++ '/' :: (joinComps (r :: rs)).data by simp]
      rw [splitChars_append '/' c.data _ hcne]
      simp only [List.map_cons]
      have htail := ih (by simp) (fun s hs => hv s (by simp [hs]))
      unfold splitPath at htail
      rw [htail]

/-- `filepath.Base` of a slash-free non-empty name is the name itself. -/
theorem baseName_no_slash (s : String) (h1 : s ≠ "")
    (h2 : ∀ ch ∈ s.data, ch ≠ '/') : baseName s = s := by
  unfold baseName
  rw [if_neg h1]
  have hall : ∀ y ∈ s.data.reverse, (fun c => decide (c = '/')) y = false := by
    intro y hy
    simp only [decide_eq_false_iff_not]
    exact h2 y (List.mem_reverse.mp hy)
  rw [dropWhile_eq_self_of_all _ s.data.reverse hall]
  have hne : s.data.reverse ≠ [] := by
    intro hcontra
    exact h1 (stringDataEq (by simpa using congrArg List.reverse hcontra))
  rw [if_neg hne]
  rw [takeWhile_eq_self_of_all _ s.data.reverse (by
    intro y hy
    simp only [decide_eq_true_eq]
    exact h2 y (List.mem_reverse.mp hy))]
  exact stringDataEq (by simp)

/-- `filepath.Base` ignores everything before the last slash, as long as the
final segment contains a non-slash character. -/
theorem baseName_append_slash (x y : String)
    (hy : ∃ ch ∈ y.data, ch ≠ '/') :
    baseName (x ++ "/" ++ y) = baseName y := by
  have hydata : y.data ≠ [] := by
    rcases hy with ⟨ch, hch, _⟩
    intro hcontra
    rw [hcontra] at hch
    exact List.not_mem_nil ch hch
  have hyne : y ≠ "" := fun hcontra => hydata (congrArg String.data hcontra)
  have hpne : x ++ "/" ++ y ≠ "" := by
    intro hcontra
    have h0 := congrArg String.data hcontra
    simp at h0
  have hex : ∃ ch ∈ y.data.reverse, (fun c => decide (c = '/')) ch = false := by
    rcases hy with ⟨ch, hch, hcne⟩
    exact ⟨ch, List.mem_reverse.mpr hch, by simpa using hcne⟩
  unfold baseName
  rw [if_neg hpne, if_neg hyne]
  have hdata : (x ++ "/" ++ y).data.reverse = y.data.reverse ++ '/' :: x.data.reverse := by
    simp
  rw [hdata]
  rw [dropWhile_append_of_exists _ y.data.reverse ('/' :: x.data.reverse) hex]
  have hr1 : y.data.reverse.dropWhile (fun c => decide (c = '/')) ++ '/' :: x.data.reverse ≠ [] := by
    simp
  rw [if_neg hr1, if_neg (dropWhile_ne_nil_of_exists _ y.data.reverse hex),
    takeWhile_append_stop _ '/' (by simp)]

/-- The joined path of valid components contains a non-slash character. -/
theorem joinComps_has_non_slash : ∀ (dirs : List String) (leaf : String),
    validName leaf = true →
    ∃ ch ∈ (joinComps (dirs ++ [leaf])).data, ch ≠ '/' := by
  intro dirs leaf hleaf
  obtain ⟨hne, hfree⟩ := validName_spec hleaf
  induction dirs with
  | nil =>
    have hl : leaf.data ≠ [] := fun hcontra => hne (stringDataEq (by simp [hcontra]))
    rcases List.exists_mem_of_ne_nil leaf.data hl with ⟨ch, hch⟩
    exact ⟨ch, hch, hfree ch hch⟩
  | cons d dirs2 ih =>
    rcases ih with ⟨ch, hch, hchne⟩
    refine ⟨ch, ?_, hchne⟩
    rw [List.cons_append, joinComps_cons d (dirs2 ++ [leaf]) (by simp)]
    simp only [String.data_append, List.append_assoc, List.mem_append]
    right; right
    simpa using hch

/-- `filepath.Base` of a joined valid path is its last component. -/
theorem baseName_joinComps : ∀ (dirs : List String) (leaf : String),
    validName leaf = true →
    baseName (joinComps (dirs ++ [leaf])) = leaf := by
  intro dirs leaf hleaf
  obtain ⟨hne, hfree⟩ := validName_spec hleaf
  induction dirs with
  | nil =>
    simp only [List.nil_append, joinComps]
    exact baseName_no_slash leaf hne hfree
  | cons d dirs2 ih =>
    rw [show (d :: dirs2) ++ [leaf] = d :: (dirs2 ++ [leaf]) from rfl]
    rw [joinComps_cons d (dirs2 ++ [leaf]) (by simp)]
    rw [baseName_append_slash d (joinComps (dirs2 ++ [leaf]))
      (joinComps_has_non_slash dirs2 leaf hleaf)]
    exact ih

/-- Resolution over a list succeeds exactly when it succeeds at one node. -/
theorem lookupFile_cons_ne_none (n : FSNode) (ns : List FSNode)
    (comps : List String) :
    lookupFile (n :: ns) comps ≠ none ↔
      (lookupIn n comps ≠ none ∨ lookupFile ns comps ≠ none) := by
  simp only [lookupFile]
  cases hlk : lookupIn n comps <;> simp [hlk]

/-- Resolution through a directory strips its name. -/
theorem lookupIn_dir_cons (nm : String) (ch : List FSNode) (comps : List String)
    (h : comps ≠ []) :
    lookupIn (.dir nm ch) (nm :: comps) = lookupFile ch comps := by
  cases comps with
  | nil => exact absurd rfl h
  | cons r rs => simp [lookupIn]

/-- A file node resolves only its own singleton path. -/
theorem lookupIn_file_ne_none {nm c : String} {comps : List String}
    (h : lookupIn (.file nm c) comps ≠ none) : comps = [nm] := by
  by_cases hc : comps = [nm]
  · exact hc
  · exact absurd (by simp [lookupIn, hc]) h

/-- A directory node resolves only paths opening with its name and
continuing among its children. -/
theorem lookupIn_dir_ne_none {nm : String} {ch : List FSNode} {comps : List String}
    (h : lookupIn (.dir nm ch) comps ≠ none) :
    ∃ rest, rest ≠ [] ∧ comps = nm :: rest ∧ lookupFile ch rest ≠ none := by
  cases comps with
  | nil => simp [lookupIn] at h
  | cons d rest =>
    cases rest with
    | nil => simp [lookupIn] at h
    | cons r rs =>
      by_cases hd : d = nm
      · subst hd
        refine ⟨r :: rs, by simp, rfl, ?_⟩
        intro hcontra
        apply h
        simp [lookupIn, hcontra]
      · exact absurd (by simp [lookupIn, hd]) h

/-- A list appending to a singleton is empty-fronted. -/
theorem append_singleton_eq {dirs : List String} {leaf nm : String}
    (h : dirs ++ [leaf] = [nm]) : dirs = [] ∧ leaf = nm := by
  cases dirs with
  | nil => simpa using h
  | cons d ds =>
    have := congrArg List.length h
    simp at this

mutual

/-- The paths collected below one node are exactly the resolvable
`.sql`-named file paths below it, prefixed. -/
theorem walkNode_mem : ∀ (n : FSNode) (pre p : String),
    p ∈ walkNode pre n ↔ ∃ dirs leaf, lookupIn n (dirs ++ [leaf]) ≠ none ∧
      hasSuffix leaf ".sql" = true ∧ p = pre ++ joinComps (dirs ++ [leaf])
  | FSNode.file nm c, pre, p => by
    simp only [walkNode]
    cases hsuf : hasSuffix nm ".sql"
    · simp only [Bool.false_eq_true, if_false, List.not_mem_nil, false_iff]
      rintro ⟨dirs, leaf, hlk, hs, hp⟩
      obtain ⟨hd, hleaf⟩ := append_singleton_eq (lookupIn_file_ne_none hlk)
      subst hleaf
      rw [hsuf] at hs
      exact Bool.noConfusion hs
    · simp only [if_true, List.mem_singleton]
      constructor
      · intro hp
        exact ⟨[], nm, by simp [lookupIn], hsuf, by simpa using hp⟩
      · rintro ⟨dirs, leaf, hlk, hs, hp⟩
        obtain ⟨hd, hleaf⟩ := append_singleton_eq (lookupIn_file_ne_none hlk)
        subst hd; subst hleaf
        simpa using hp
  | FSNode.dir nm ch, pre, p => by
    simp only [walkNode]
    rw [walkList_mem ch (pre ++ nm ++ "/") p]
    constructor
    · rintro ⟨dirs2, leaf, hlk, hs, hp⟩
      refine ⟨nm :: dirs2, leaf, ?_, hs, ?_⟩
      · rw [List.cons_append, lookupIn_dir_cons nm ch (dirs2 ++ [leaf]) (by simp)]
        exact hlk
      · rw [hp, List.cons_append, joinComps_cons nm (dirs2 ++ [leaf]) (by simp)]
        simp [String.append_assoc]
    · rintro ⟨dirs, leaf, hlk, hs, hp⟩
      obtain ⟨rest, hne, hcomps, hlk2⟩ := lookupIn_dir_ne_none hlk
      cases dirs with
      | nil =>
        obtain ⟨hleaf, hrest⟩ : leaf = nm ∧ rest = [] := by
          simpa using hcomps
        exact absurd hrest hne
      | cons d dirs2 =>
        obtain ⟨hd, hrest⟩ : d = nm ∧ dirs2 ++ [leaf] = rest := by
          simpa using hcomps
        refine ⟨dirs2, leaf, by rw [hrest]; exact hlk2, hs, ?_⟩
        rw [hp, hd, List.cons_append, joinComps_cons nm (dirs2 ++ [leaf]) (by simp)]
        simp [String.append_assoc]

/-- The paths collected below a forest are exactly the resolvable
`.sql`-named file paths below it, prefixed. -/
theorem walkList_mem : ∀ (nodes : List FSNode) (pre p : String),
    p ∈ walkList pre nodes ↔ ∃ dirs leaf, lookupFile nodes (dirs ++ [leaf]) ≠ none ∧
      hasSuffix leaf ".sql" = true ∧ p = pre ++ joinComps (dirs ++ [leaf])
  | [], pre, p => by
    simp [walkList, lookupFile]
  | n :: ns, pre, p => by
    simp only [walkList, List.mem_append]
    rw [walkNode_mem n pre p, walkList_mem ns pre p]
    constructor
    · rintro (⟨dirs, leaf, hlk, hs, hp⟩ | ⟨dirs, leaf, hlk, hs, hp⟩)
      · exact ⟨dirs, leaf,
          (lookupFile_cons_ne_none n ns (dirs ++ [leaf])).mpr (Or.inl hlk), hs, hp⟩
      · exact ⟨dirs, leaf,
          (lookupFile_cons_ne_none n ns (dirs ++ [leaf])).mpr (Or.inr hlk), hs, hp⟩
    · rintro ⟨dirs, leaf, hlk, hs, hp⟩
      rcases (lookupFile_cons_ne_none n ns (dirs ++ [leaf])).mp hlk with h | h
      · exact Or.inl ⟨dirs, leaf, h, hs, hp⟩
      · exact Or.inr ⟨dirs, leaf, h, hs, hp⟩

end

mutual

/-- A resolvable path below a well-formed node consists of legal names. -/
theorem lookupIn_validNames : ∀ (n : FSNode) (comps : List String),
    nodeWF n = true → lookupIn n comps ≠ none → ∀ s ∈ comps, validName s = true
  | FSNode.file nm c, comps, hwf, hlk => by
    have hc := lookupIn_file_ne_none hlk
    subst hc
    intro s hs
    rw [List.mem_singleton.mp hs]
    simpa [nodeWF] using hwf
  | FSNode.dir nm ch, comps, hwf, hlk => by
    obtain ⟨rest, _, hcomps, hlk2⟩ := lookupIn_dir_ne_none hlk
    subst hcomps
    have hw : validName nm = true ∧ listWF ch = true := by
      simpa [nodeWF, Bool.and_eq_true] using hwf
    intro s hs
    rcases List.mem_cons.mp hs with rfl | hs2
    · exact hw.1
    · exact lookupFile_validNames ch rest hw.2 hlk2 s hs2

/-- A resolvable path below a well-formed forest consists of legal names. -/
theorem lookupFile_validNames : ∀ (nodes : List FSNode) (comps : List String),
    listWF nodes = true → lookupFile nodes comps ≠ none →
    ∀ s ∈ comps, validName s = true
  | [], comps, _, hlk => by simp [lookupFile] at hlk
  | n :: ns, comps, hwf, hlk => by
    have hw : nodeWF n = true ∧ listWF ns = true := by
      simpa [listWF, Bool.and_eq_true] using hwf
    rcases (lookupFile_cons_ne_none n ns comps).mp hlk with h | h
    · exact lookupIn_validNames n comps hw.1 h
    · exact lookupFile_validNames ns comps hw.2 h

end

/-- C10: on a well-formed source tree, `getMigrationFiles` returns a list
sorted ascending as full path strings, whose members are exactly the paths
that resolve to a file — at any depth, so nested `.sql` files are
included — whose entry name (the path's base name) ends in `".sql"`;
entries without the suffix, and directories, are excluded. -/
theorem getMigrationFiles_characterization (m : Migrator)
    (hwf : listWF m.migrations = true) :
    List.Pairwise (· ≤ ·) m.getMigrationFiles ∧
    ∀ p, p ∈ m.getMigrationFiles ↔
      (readFile m.migrations p ≠ none ∧ hasSuffix (baseName p) ".sql" = true) := by
  constructor
  · exact sortStrings_sorted _
  · intro p
    rw [show m.getMigrationFiles = sortStrings (walkList "" m.migrations) from rfl,
      mem_sortStrings, walkList_mem m.migrations "" p]
    constructor
    · rintro ⟨dirs, leaf, hlk, hs, hp⟩
      have hvalid : ∀ s ∈ dirs ++ [leaf], validName s = true :=
        lookupFile_validNames m.migrations (dirs ++ [leaf]) hwf hlk
      have hpj : p = joinComps (dirs ++ [leaf]) := by
        rw [hp]
        exact stringDataEq (by simp)
      have hsplit : splitPath p = dirs ++ [leaf] := by
        rw [hpj]
        exact splitPath_joinComps (dirs ++ [leaf]) (by simp) hvalid
      constructor
      · rw [readFile, hsplit]
        exact hlk
      · rw [hpj, baseName_joinComps dirs leaf (hvalid leaf (by simp))]
        exact hs
    · rintro ⟨hread, hsuf⟩
      have hne : splitPath p ≠ [] := splitPath_ne_nil p
      obtain ⟨dirs, leaf, hdl⟩ : ∃ dirs leaf, splitPath p = dirs ++ [leaf] :=
        ⟨(splitPath p).dropLast, (splitPath p).getLast hne,
          (List.dropLast_append_getLast hne).symm⟩
      have hlk : lookupFile m.migrations (dirs ++ [leaf]) ≠ none := by
        rw [← hdl]
        exact hread
      have hvalid := lookupFile_validNames m.migrations (dirs ++ [leaf]) hwf hlk
      have hpj : p = joinComps (dirs ++ [leaf]) := by
        rw [← hdl]
        exact (joinComps_splitPath p).symm
      refine ⟨dirs, leaf, hlk, ?_, ?_⟩
      · rw [← baseName_joinComps dirs leaf (hvalid leaf (by simp)), ← hpj]
        exact hsuf
      · rw [hpj]
        exact stringDataEq (by simp)

/-- A nested source: a root migration, a nested migration, and a
non-`.sql` file. -/
def srcNested : Migrator :=
  ⟨[.file "001_a.sql" "alpha",
    .dir "sub" [.file "000_n.sql" "nested", .file "skip.txt" "text"]]⟩

/-- Witness for C10 on the nested source. -/
theorem getMigrationFiles_characterization_witness :
    listWF srcNested.migrations = true ∧
    (List.Pairwise (· ≤ ·) srcNested.getMigrationFiles ∧
     ∀ p, p ∈ srcNested.getMigrationFiles ↔
       (readFile srcNested.migrations p ≠ none ∧
        hasSuffix (baseName p) ".sql" = true)) :=
  ⟨by decide, getMigrationFiles_characterization srcNested (by decide)⟩
